import Mathlib

/-!
# docs-scraper: the documentation aggregation engine

A shallow embedding of the string and tree computations of `cmd/go_cmd.go`,
`cmd/local.go` and `cmd/github.go`, and theorems about them.

Go strings are modelled as lists of code points (`Str`).  Every string
operation used by the resolver (`Split`, `Join`, `HasPrefix`, `TrimPrefix`,
`LastIndex`, slicing next to the ASCII bytes `/` and `v`) cuts the string at
ASCII positions only, so on well-formed UTF-8 the byte-level and the
code-point-level readings agree.  Lengths that Go counts in bytes are counted
in bytes of the UTF-8 encoding (`byteLen`).

The local and github flows are modelled over a file tree.  Two things are
taken for granted there: writes to the output file succeed, and nothing but
the run itself changes the file system while it runs.  A scan loop that may
not end (over the output file itself, or over a file without an end) is given
a budget of turns, `fuel`; a run that has used it up is `unfinished`.
-/

namespace DocsScraper

/-- A Go string, as the list of its code points. -/
abbrev Str := List Char

/-! ## The Go standard-library string functions the commands call -/

/-- `strings.Split(s, sep)` for a one-character separator: all the pieces of
`s` between separators; never empty (`Split("", "/")` is `[""]`). -/
def Split : Str → Char → List Str
  | [], _ => [[]]
  | c :: cs, sep =>
    if c = sep then [] :: Split cs sep
    else
      match Split cs sep with
      | [] => [[c]]
      | seg :: rest => (c :: seg) :: rest

/-- `strings.Join(parts, sep)`. -/
def Join : List Str → Str → Str
  | [], _ => []
  | [a], _ => a
  | a :: b :: rest, sep => a ++ sep ++ Join (b :: rest) sep

/-- `strings.HasPrefix(s, p)`. -/
def HasPrefix (s p : Str) : Bool := p.isPrefixOf s

/-- `strings.HasSuffix(s, p)`. -/
def HasSuffix (s p : Str) : Bool := p.isSuffixOf s

/-- `strings.TrimPrefix(s, p)`: `s` without the leading `p`, or `s` itself
when `s` does not start with `p`. -/
def TrimPrefix (s p : Str) : Str := if HasPrefix s p then s.drop p.length else s

/-- `strings.LastIndex(s, sub)`: the offset of the last occurrence of `sub`
in `s`; `none` stands for Go's `-1`. -/
def LastIndex : Str → Str → Option Nat
  | [], sub => if sub = [] then some 0 else none
  | c :: cs, sub =>
    match LastIndex cs sub with
    | some i => some (i + 1)
    | none => if sub.isPrefixOf (c :: cs) then some 0 else none

/-! ## Failure: Go's run-time panics and the command's own errors -/

/-- The ways the modelled part of `goCmd.RunE` can stop without a result. -/
inductive GoFail
  | packageRequired
  | outOfRange
  deriving DecidableEq, Repr

/-- Equality of results is decidable, so that runs can be compared. -/
instance instDecidableEqExcept {ε α : Type} [DecidableEq ε] [DecidableEq α] :
    DecidableEq (Except ε α)
  | .ok a, .ok b => if h : a = b then isTrue (by rw [h]) else isFalse (fun e => h (by cases e; rfl))
  | .error a, .error b =>
    if h : a = b then isTrue (by rw [h]) else isFalse (fun e => h (by cases e; rfl))
  | .ok _, .error _ => isFalse (fun e => by cases e)
  | .error _, .ok _ => isFalse (fun e => by cases e)

/-- The Go index expression `xs[i]`, which panics when `i` is out of range. -/
def index {α : Type} (xs : List α) (i : Nat) : Except GoFail α :=
  match xs.get? i with
  | some x => .ok x
  | none => .error .outOfRange

/-- The Go slice expression `s[lo:]`, which panics when `lo > len(s)`. -/
def sliceFrom {α : Type} (s : List α) (lo : Nat) : Except GoFail (List α) :=
  if lo ≤ s.length then .ok (s.drop lo) else .error .outOfRange

/-- The Go slice expression `s[:hi]`, which panics when `hi > len(s)`. -/
def sliceTo {α : Type} (s : List α) (hi : Nat) : Except GoFail (List α) :=
  if hi ≤ s.length then .ok (s.take hi) else .error .outOfRange

/-! ## `cmd/go_cmd.go` -/

/-- The function `isNumeric` of `go_cmd.go`: no character outside `0`..`9`
(so the empty string is numeric). -/
def isNumeric (s : Str) : Bool := s.all (fun c => !(c < '0' || c > '9'))

/-- The test `strings.HasPrefix(seg, "v") && isNumeric(seg[1:])`, written
twice in `goCmd.RunE` (for `parts[3]` and for `segParts[0]`); the slice is
evaluated only when the prefix test succeeds. -/
def versionTest (seg : Str) : Except GoFail Bool :=
  if HasPrefix seg "v".toList then
    match sliceFrom seg 1 with
    | .ok t => .ok (isNumeric t)
    | .error e => .error e
  else .ok false

/-- Lines 32-43 of `go_cmd.go`: the root path, given or derived from the
package path. -/
def deriveRoot (goPkgPath goRootPath : Str) : Except GoFail Str :=
  if goRootPath = [] then
    let parts := Split goPkgPath '/'
    if 3 ≤ parts.length then
      match sliceTo parts 3 with
      | .error e => .error e
      | .ok first3 =>
        let root := Join first3 "/".toList
        if 4 ≤ parts.length then
          match index parts 3 with
          | .error e => .error e
          | .ok p3 =>
            match versionTest p3 with
            | .error e => .error e
            | .ok true => .ok (root ++ "/".toList ++ p3)
            | .ok false => .ok root
        else .ok root
    else .ok goPkgPath
  else .ok goRootPath

/-- Lines 61-68 of `go_cmd.go`: the clone URL of a root path. -/
def cloneUrl (gitRoot : Str) : Except GoFail Str :=
  match LastIndex gitRoot "/v".toList with
  | none => .ok ("https://".toList ++ gitRoot)
  | some idx =>
    match sliceFrom gitRoot (idx + 1) with
    | .error e => .error e
    | .ok suffix =>
      if 1 < suffix.length then
        match sliceFrom suffix 1 with
        | .error e => .error e
        | .ok digits =>
          if isNumeric digits then
            match sliceTo gitRoot idx with
            | .error e => .error e
            | .ok stem => .ok ("https://".toList ++ stem)
          else .ok ("https://".toList ++ gitRoot)
      else .ok ("https://".toList ++ gitRoot)

/-- Lines 102-121 of `go_cmd.go`: `pathAfterRepo`, the path of the package
inside the repository; `gitRoot` is the root path of lines 32-43. -/
def pathAfterRepo (goPkgPath gitRoot : Str) : Except GoFail Str :=
  let parts := Split goPkgPath '/'
  match (if 3 ≤ parts.length then
      (match sliceTo parts 3 with
        | .error e => .error e
        | .ok first3 => .ok (Join first3 "/".toList))
      else .ok gitRoot : Except GoFail Str) with
  | .error e => .error e
  | .ok repoBase =>
    let after := TrimPrefix (TrimPrefix goPkgPath repoBase) "/".toList
    let segParts := Split after '/'
    if 0 < segParts.length then
      match index segParts 0 with
      | .error e => .error e
      | .ok seg0 =>
        match versionTest seg0 with
        | .error e => .error e
        | .ok true => .ok (TrimPrefix (TrimPrefix after seg0) "/".toList)
        | .ok false => .ok after
    else .ok after

/-- Lines 123-127 of `go_cmd.go`: the argument handed to `go doc`. -/
def relPath (after : Str) : Str :=
  if after ≠ [] then "./".toList ++ after else ".".toList

/-- What the resolver part of `goCmd.RunE` computes. -/
structure Resolved where
  repoRoot : Str
  cloneURL : Str
  relativePath : Str
  docPath : Str
  deriving DecidableEq, Repr

/-- The string computations of `goCmd.RunE`, in source order, with the
external steps between them (temporary directory, `git clone`, output file)
taken to succeed: the package-path check, the root path, the clone URL, the
path inside the repository and the `go doc` argument. -/
def goResolve (goPkgPath goRootPath : Str) : Except GoFail Resolved :=
  if goPkgPath = [] then .error .packageRequired
  else
    match deriveRoot goPkgPath goRootPath with
    | .error e => .error e
    | .ok root =>
      match cloneUrl root with
      | .error e => .error e
      | .ok url =>
        match pathAfterRepo goPkgPath root with
        | .error e => .error e
        | .ok after =>
          .ok { repoRoot := root, cloneURL := url, relativePath := after, docPath := relPath after }

/-! ## The Line Filter of `cmd/local.go` and `cmd/github.go`

The two patterns are Go (RE2) regular expressions.  They are embedded as
syntax trees over character classes, matched by Brzozowski derivatives. -/

/-- Regular expressions over character classes. -/
inductive Re
  | empty
  | eps
  | cls (p : Char → Bool)
  | alt (a b : Re)
  | cat (a b : Re)
  | star (a : Re)

/-- Whether the expression matches the empty string. -/
def Re.nullable : Re → Bool
  | .empty => false
  | .eps => true
  | .cls _ => false
  | .alt a b => a.nullable || b.nullable
  | .cat a b => a.nullable && b.nullable
  | .star _ => true

/-- The derivative of an expression by one character. -/
def Re.deriv (c : Char) : Re → Re
  | .empty => .empty
  | .eps => .empty
  | .cls p => if p c then .eps else .empty
  | .alt a b => .alt (a.deriv c) (b.deriv c)
  | .cat a b =>
    if a.nullable then .alt (.cat (a.deriv c) b) (b.deriv c) else .cat (a.deriv c) b
  | .star a => .cat (a.deriv c) (.star a)

/-- Whole-string match.  Both patterns of the Line Filter start with `^` and
end with `$` (no flags), so `MatchString` on them succeeds exactly when the
body between the anchors matches the whole line. -/
def Re.MatchString (r : Re) (s : Str) : Bool := (s.foldl (fun q c => q.deriv c) r).nullable

/-- The class `\s` of Go regular expressions: `[\t\n\f\r ]`. -/
def isSpace (c : Char) : Bool :=
  c == '\t' || c == '\n' || c == '\x0c' || c == '\r' || c == ' '

/-- The class `.` of Go regular expressions without the `s` flag: any
character but the newline. -/
def isDot (c : Char) : Bool := c != '\n'

/-- A literal string as an expression. -/
def Re.lit : Str → Re
  | [] => .eps
  | c :: cs => .cat (.cls (fun x => x == c)) (Re.lit cs)

/-- The pattern `^\s*import\s.*;\s*$` (between its anchors). -/
def importRe : Re :=
  .cat (.star (.cls isSpace)) (.cat (Re.lit "import".toList) (.cat (.cls isSpace)
    (.cat (.star (.cls isDot)) (.cat (.cls (fun x => x == ';')) (.star (.cls isSpace))))))

/-- The pattern `^\s*export\s.*$` (between its anchors). -/
def exportRe : Re :=
  .cat (.star (.cls isSpace)) (.cat (Re.lit "export".toList) (.cat (.cls isSpace)
    (.star (.cls isDot))))

/-- The two tests of the scan loop: a line for which either pattern matches
is skipped (`continue`), every other line is written. -/
def elided (line : Str) : Bool :=
  if importRe.MatchString line then true
  else if exportRe.MatchString line then true
  else false

/-! ## The Extension Matcher -/

/-- `strings.ToLower`, which maps `unicode.ToLower` over the code points.
The Unicode case table is part of the Go library, not of this program; it is
the parameter `lower`. -/
def ToLower (lower : Char → Char) (s : Str) : Str := s.map lower

/-- The `matchExt` loop of the walk callbacks: the first configured extension
that fits ends the loop. -/
def matchExt (lower : Char → Char) (name : Str) : List Str → Bool
  | [] => false
  | ext :: rest =>
    let ext := TrimPrefix ext ".".toList
    if HasSuffix (ToLower lower name) (".".toList ++ ToLower lower ext) then true
    else matchExt lower name rest

/-! ## `bufio.Scanner` with `bufio.ScanLines`

The scan loops read a file through `bufio.NewScanner`, whose buffer grows to
`bufio.MaxScanTokenSize` bytes and no further.  A line that does not fit in it
together with its line feed makes `scanner.Scan` return `false`; neither flow
looks at `scanner.Err`, so the loop just ends there. -/

/-- `bufio.MaxScanTokenSize`. -/
def maxScanTokenSize : Nat := 64 * 1024

/-- The length of a string in bytes (its UTF-8 encoding), Go's `len`. -/
def byteLen (s : Str) : Nat := (s.map Char.utf8Size).sum

/-- The function `dropCR` of package `bufio`: one trailing carriage return is
dropped from a line. -/
def dropCR (s : Str) : Str := if s.getLast? = some '\r' then s.dropLast else s

/-! ## The walk callback: header, scan loop, separator -/

/-- The header `fmt.Fprintf(outFile, "<!-- FILE: %s -->\n\n### %s\n\n", relFile, relFile)`. -/
def header (relFile : Str) : Str :=
  "<!-- FILE: ".toList ++ relFile ++ " -->\n\n### ".toList ++ relFile ++ "\n\n".toList

/-- The bytes of `fmt.Fprintln(outFile, "\n\n---\n\n")`. -/
def separator : Str := "\n\n---\n\n".toList ++ "\n".toList

/-- The scan loop `for scanner.Scan() { line := scanner.Text(); ... }` over a
file with an end, given as its raw lines: the pieces between line feeds, a
carriage return before the line feed still on them.  A raw line of
`maxScanTokenSize` bytes or more ends the loop (`Scan` returns `false`); else
the line is the raw line after `dropCR`, skipped when either pattern matches
and written with `fmt.Fprintln` otherwise. -/
def scanLoop : List Str → Str → Str
  | [], out => out
  | raw :: rest, out =>
    if maxScanTokenSize ≤ byteLen raw then out
    else if importRe.MatchString (dropCR raw) then scanLoop rest out
    else if exportRe.MatchString (dropCR raw) then scanLoop rest out
    else scanLoop rest (out ++ dropCR raw ++ "\n".toList)

/-- What the callback appends for one matched file that can be opened and has
an end: header, scanned lines, separator. -/
def emitFile (relFile : Str) (raw : List Str) (out : Str) : Str :=
  scanLoop raw (out ++ header relFile) ++ separator

/-- The emissions of the callback for a sequence of matched files, each a
relative path and raw lines, in the order the walk meets them. -/
def aggregate : List (Str × List Str) → Str → Str
  | [], out => out
  | f :: rest, out => aggregate rest (emitFile f.1 f.2 out)

/-- The scan loop over a file without an end (a device, a pipe), given as the
sequence of its raw lines, from raw line `k` on, for at most `fuel` turns of
the loop.  The flag tells whether the loop has ended; it can end only at a raw
line of `maxScanTokenSize` bytes or more. -/
def scanStream (raw : Nat → Str) : Nat → Nat → Str → Str × Bool
  | 0, _, out => (out, false)
  | fuel + 1, k, out =>
    if maxScanTokenSize ≤ byteLen (raw k) then (out, true)
    else if importRe.MatchString (dropCR (raw k)) then scanStream raw fuel (k + 1) out
    else if exportRe.MatchString (dropCR (raw k)) then scanStream raw fuel (k + 1) out
    else scanStream raw fuel (k + 1) (out ++ dropCR (raw k) ++ "\n".toList)

/-- The raw lines of a file content as `bufio.ScanLines` cuts them: the pieces
between line feeds, without an empty piece after the last line feed. -/
def rawLines (content : Str) : List Str :=
  if (Split content '\n').getLast? = some [] then (Split content '\n').dropLast
  else Split content '\n'

/-- The scan loop when the file read is the output file itself, whose content
is what has been written so far (`out`): raw line `k` of the current content
is read, and a line that passes is appended to that same content.  At most
`fuel` turns of the loop; the flag tells whether the loop has ended (at the
end of the content, or at a raw line of `maxScanTokenSize` bytes or more). -/
def scanSink : Nat → Nat → Str → Str × Bool
  | 0, _, out => (out, false)
  | fuel + 1, k, out =>
    match (rawLines out).get? k with
    | none => (out, true)
    | some raw =>
      if maxScanTokenSize ≤ byteLen raw then (out, true)
      else if importRe.MatchString (dropCR raw) then scanSink fuel (k + 1) out
      else if exportRe.MatchString (dropCR raw) then scanSink fuel (k + 1) out
      else scanSink fuel (k + 1) (out ++ dropCR raw ++ "\n".toList)

/-! ## The file tree and `filepath.Walk`

The tree is the file system as it stands while the walk runs, that is, after
`os.Create` has made the output file.  Nothing but the run itself changes it,
and the run changes only the output file; so the one part of the tree that is
not fixed is the content of an entry that is the output file (or a link to
it), which is whatever the run has written so far. -/

/-- What `os.Open` and the scanner find behind an entry that is not a
directory: the open fails; or a file with an end, as its raw lines; or a file
without an end, as the sequence of its raw lines; or the output file of the
run itself. -/
inductive Content
  | unopenable
  | lines (raw : List Str)
  | stream (raw : Nat → Str)
  | sink

/-- What `filepath.Walk` can meet.  A `file` is any entry that is not a
directory.  A `dir` whose flag is `false` cannot be listed; its entries are
in no particular order.  A `broken` entry is one for which `Lstat` fails. -/
inductive Node
  | file (name : Str) (content : Content)
  | dir (name : Str) (listable : Bool) (entries : List Node)
  | broken (name : Str)

/-- The base name of an entry (`info.Name()`). -/
def Node.name : Node → Str
  | .file n _ => n
  | .dir n _ _ => n
  | .broken n => n

/-- The errors a walk can stop with, each with the path it arose at. -/
inductive WalkErr
  | lstat (path : Str)
  | readDir (path : Str)
  | openFile (path : Str)
  deriving DecidableEq, Repr

/-- How a walk stands after its budget of loop turns: it has returned `nil`,
it has returned an error, or it is still inside the scan loop of a file. -/
inductive WalkEnd
  | done
  | failed (e : WalkErr)
  | unfinished
  deriving DecidableEq, Repr

/-- The path relative to the walk base of an entry `name` of the directory
whose relative path is `parent` (`filepath.Rel` of `filepath.Join(path, name)`);
the base itself has relative path `.`. -/
def relChild (parent name : Str) : Str :=
  if parent = ".".toList then name else parent ++ "/".toList ++ name

/-- The callback on a non-directory entry: extension test, header, open,
scan loop, separator.  An entry that cannot be opened ends the walk with the
header already written. -/
def visitFile (fuel : Nat) (lower : Char → Char) (exts : List Str) (rel name : Str)
    (content : Content) (out : Str) : Str × WalkEnd :=
  if matchExt lower name exts then
    match content with
    | .unopenable => (out ++ header rel, .failed (.openFile rel))
    | .lines raw => (emitFile rel raw out, .done)
    | .stream raw =>
      match scanStream raw fuel 0 (out ++ header rel) with
      | (out1, true) => (out1 ++ separator, .done)
      | (out1, false) => (out1, .unfinished)
    | .sink =>
      match scanSink fuel 0 (out ++ header rel) with
      | (out1, true) => (out1 ++ separator, .done)
      | (out1, false) => (out1, .unfinished)
  else (out, .done)

/-- The order `<` of Go strings, byte by byte; on well-formed UTF-8 it is the
order code point by code point. -/
def strLt : Str → Str → Bool
  | _, [] => false
  | [], _ :: _ => true
  | x :: xs, y :: ys => if x < y then true else if y < x then false else strLt xs ys

/-- One step of sorting by name: `p` goes before the first item whose name is
not smaller than its own. -/
def insertByName {α : Type} (p : Str × α) : List (Str × α) → List (Str × α)
  | [] => [p]
  | q :: rest => if strLt q.1 p.1 then q :: insertByName p rest else p :: q :: rest

/-- The `sort.Strings` of `readDirNames`, on items that carry their name. -/
def sortByName {α : Type} : List (Str × α) → List (Str × α)
  | [] => []
  | p :: rest => insertByName p (sortByName rest)

/-- The loop of `filepath.Walk` over the entries of a directory, each given by
its name and what walking it does to the output; the first entry that does not
end with `nil` ends the loop. -/
def runInOrder : List (Str × (Str → Str × WalkEnd)) → Str → Str × WalkEnd
  | [], out => (out, .done)
  | p :: rest, out =>
    match p.2 out with
    | (out1, .done) => runInOrder rest out1
    | (out1, e) => (out1, e)

mutual
/-- The function `filepath.Walk` with the callback of the local and github
flows, on one entry: the output so far goes in, the output and the state of
the walk come out.  The callback returns every error it is handed, and `nil`
on a directory, whose entries are then walked in the order of their names. -/
def walk (fuel : Nat) (lower : Char → Char) (exts : List Str) (rel : Str) :
    Node → Str → Str × WalkEnd
  | .broken _, out => (out, .failed (.lstat rel))
  | .file name content, out => visitFile fuel lower exts rel name content out
  | .dir _ listable entries, out =>
    if listable then runInOrder (sortByName (walkAll fuel lower exts rel entries)) out
    else (out, .failed (.readDir rel))
/-- The entries of a directory, each with its name and its walk. -/
def walkAll (fuel : Nat) (lower : Char → Char) (exts : List Str) (parent : Str) :
    List Node → List (Str × (Str → Str × WalkEnd))
  | [] => []
  | n :: rest =>
    (n.name, fun out => walk fuel lower exts (relChild parent n.name) n out) ::
      walkAll fuel lower exts parent rest
end

/-! ## The runs of the local and github flows -/

/-- The lines the commands print to standard output. -/
inductive Msg
  | cannotResolve (root : Str)
  | pathNotFound (path : Str)
  | errorWalking (path : Str) (e : WalkErr)
  | cloning (url : Str)
  | done (output : Str)
  deriving DecidableEq, Repr

/-- The errors `RunE` returns. -/
inductive RunErr
  | noSourcePath
  | repoRequired
  | mkdirTemp
  | gitClone
  | create
  deriving DecidableEq, Repr

/-- How a run stands after its budget of loop turns: `RunE` has returned `nil`,
it has returned an error, or it is still inside the scan loop of a file. -/
inductive Ret
  | ok
  | failed (e : RunErr)
  | unfinished
  deriving DecidableEq, Repr

/-- The outcome of a run: how it stands, the bytes written to the output file,
and the printed lines. -/
structure RunResult where
  ret : Ret
  out : Str
  log : List Msg
  deriving DecidableEq, Repr

/-- The file system as the local flow sees it: `filepath.Abs` (`none` when it
fails); whether `os.Create` of the output file succeeds; and `stat output
absRoot`, what `os.Stat` and the walk find at an absolute path once the file
`output` has been created: `none` when the error satisfies `os.IsNotExist`,
else the tree there, in which the output file, if that is where it was
created, is an entry with content `sink`. -/
structure LocalEnv where
  abs : Str → Option Str
  stat : Str → Str → Option Node
  create : Str → Bool

/-- The loop over `localPaths` of `localCmd.RunE`, on the output and the
printed lines so far; the flag tells whether the loop has ended. -/
def localLoop (fuel : Nat) (lower : Char → Char) (env : LocalEnv) (exts : List Str)
    (output : Str) : List Str → Str × List Msg → Str × List Msg × Bool
  | [], (out, log) => (out, log, true)
  | rootPath :: rest, (out, log) =>
    match env.abs rootPath with
    | none => localLoop fuel lower env exts output rest (out, log ++ [.cannotResolve rootPath])
    | some absRoot =>
      match env.stat output absRoot with
      | none => localLoop fuel lower env exts output rest (out, log ++ [.pathNotFound absRoot])
      | some node =>
        match walk fuel lower exts ".".toList node out with
        | (out1, .failed e) =>
          localLoop fuel lower env exts output rest (out1, log ++ [.errorWalking absRoot e])
        | (out1, .done) => localLoop fuel lower env exts output rest (out1, log)
        | (out1, .unfinished) => (out1, log, false)

/-- The extension list in force: `mdx`, `md` when none is configured. -/
def defaultExts (exts : List Str) : List Str :=
  if exts.length = 0 then ["mdx".toList, "md".toList] else exts

/-- The output file name in force: `output.md` when none is configured. -/
def defaultOutput (output : Str) : Str :=
  if output = [] then "output.md".toList else output

/-- The function `localCmd.RunE`, with a budget of `fuel` turns for each scan
loop over a file without an end or over the output file. -/
def localRun (fuel : Nat) (lower : Char → Char) (env : LocalEnv)
    (localPaths localExts : List Str) (localOutputFile : Str) : RunResult :=
  if localPaths.length = 0 then { ret := .failed .noSourcePath, out := [], log := [] }
  else
    let exts := defaultExts localExts
    let output := defaultOutput localOutputFile
    if env.create output then
      match localLoop fuel lower env exts output localPaths ([], []) with
      | (out, log, true) => { ret := .ok, out := out, log := log ++ [.done output] }
      | (out, log, false) => { ret := .unfinished, out := out, log := log }
    else { ret := .failed .create, out := [], log := [] }

/-- The world as the github flow sees it: whether `os.MkdirTemp`, `git clone`
and `os.Create` of the output file succeed; `stat output relSrc`, what
`os.Stat` and the walk find at a configured path inside the clone once the
file `output` has been created (`none` when the error satisfies
`os.IsNotExist`, else the tree there, an entry that leads to the output file
having content `sink`); and the path of a configured path relative to the
clone directory (`filepath.Rel(tmpDir, filepath.Join(tmpDir, relSrc))`), which
heads the relative paths below it. -/
structure GithubEnv where
  mkdirTemp : Bool
  clone : Str → Bool
  create : Str → Bool
  stat : Str → Str → Option Node
  rel : Str → Str

/-- The loop over `ghPaths` of `githubCmd.RunE`; the flag tells whether the
loop has ended. -/
def githubLoop (fuel : Nat) (lower : Char → Char) (env : GithubEnv) (exts : List Str)
    (output : Str) : List Str → Str × List Msg → Str × List Msg × Bool
  | [], (out, log) => (out, log, true)
  | relSrc :: rest, (out, log) =>
    match env.stat output relSrc with
    | none => githubLoop fuel lower env exts output rest (out, log ++ [.pathNotFound relSrc])
    | some node =>
      match walk fuel lower exts (env.rel relSrc) node out with
      | (out1, .failed e) =>
        githubLoop fuel lower env exts output rest (out1, log ++ [.errorWalking relSrc e])
      | (out1, .done) => githubLoop fuel lower env exts output rest (out1, log)
      | (out1, .unfinished) => (out1, log, false)

/-- The function `githubCmd.RunE`, with a budget of `fuel` turns for each scan
loop over a file without an end or over the output file. -/
def githubRun (fuel : Nat) (lower : Char → Char) (env : GithubEnv) (ghRepoURL : Str)
    (ghPaths ghExts : List Str) (ghOutputFile : Str) : RunResult :=
  if ghRepoURL = [] then { ret := .failed .repoRequired, out := [], log := [] }
  else
    let exts := defaultExts ghExts
    let output := defaultOutput ghOutputFile
    let paths := if ghPaths.length = 0 then [".".toList] else ghPaths
    if env.mkdirTemp then
      if env.clone ghRepoURL then
        if env.create output then
          match githubLoop fuel lower env exts output paths ([], [.cloning ghRepoURL]) with
          | (out, log, true) => { ret := .ok, out := out, log := log ++ [.done output] }
          | (out, log, false) => { ret := .unfinished, out := out, log := log }
        else { ret := .failed .create, out := [], log := [.cloning ghRepoURL] }
      else { ret := .failed .gitClone, out := [], log := [.cloning ghRepoURL] }
    else { ret := .failed .mkdirTemp, out := [], log := [] }

/-- Whether a printed line is a "Path not found" warning. -/
def Msg.isPathNotFound : Msg → Bool
  | .pathNotFound _ => true
  | _ => false

/-! ## The vocabulary of the specification -/

/-- A decimal digit. -/
def isDecimalDigit (c : Char) : Bool := decide ('0' ≤ c) && decide (c ≤ '9')

/-- A version segment: `v` followed by one or more decimal digits. -/
def isVersionSegment : Str → Bool
  | 'v' :: d :: ds => (d :: ds).all isDecimalDigit
  | _ => false

/-- The version test of `goCmd.RunE` as a plain Boolean: the segment starts
with `v` and what follows is numeric (possibly empty). -/
def versionLike (seg : Str) : Bool := HasPrefix seg "v".toList && isNumeric (seg.drop 1)

/-- The last of the slash-separated segments of a path. -/
def lastSegment (path : Str) : Str := (Split path '/').getLastD []

/-- A line without its leading whitespace. -/
def trimLeft (s : Str) : Str := s.dropWhile isSpace

/-- A line without its trailing whitespace. -/
def trimRight (s : Str) : Str := (s.reverse.dropWhile isSpace).reverse

/-- A word character: a letter, a digit or the underscore. -/
def isWordChar (c : Char) : Bool := c.isAlphanum || c == '_'

/-- The string `s` begins with the keyword `kw` as a whole word: `kw` is not
immediately followed by a further word character. -/
def beginsWithWord (kw s : Str) : Bool :=
  HasPrefix s kw &&
    match s.drop kw.length with
    | [] => true
    | c :: _ => !isWordChar c

/-- The string `s` begins with the keyword `kw` immediately followed by a
whitespace character. -/
def beginsWithKeyword (kw s : Str) : Bool :=
  HasPrefix s kw &&
    match s.drop kw.length with
    | [] => false
    | c :: _ => isSpace c

/-- The Line Filter as stated with whole-word keywords: an `import` word at
the start and `;` at the end (both after trimming), or an `export` word at the
start. -/
def elidedByWord (line : Str) : Bool :=
  (beginsWithWord "import".toList (trimLeft line) && HasSuffix (trimRight line) ";".toList)
    || beginsWithWord "export".toList (trimLeft line)

/-- The Line Filter with keywords that must be followed by whitespace. -/
def elidedByKeyword (line : Str) : Bool :=
  (beginsWithKeyword "import".toList (trimLeft line) && HasSuffix (trimRight line) ";".toList)
    || beginsWithKeyword "export".toList (trimLeft line)

/-- The lines of a file as the specification counts them: each raw line
without the carriage return that belongs to its terminator. -/
def contentLines (raw : List Str) : List Str := raw.map dropCR

/-- The block of one file as the specification words it: header, every line
of the file that passes, followed by a newline, separator. -/
def fullBlock (f : Str × List Str) : Str :=
  "<!-- FILE: ".toList ++ f.1 ++ " -->\n\n### ".toList ++ f.1 ++ "\n\n".toList
    ++ (((contentLines f.2).filter (fun l => !elided l)).map (fun l => l ++ "\n".toList)).flatten
    ++ "\n\n---\n\n\n".toList

/-- The raw lines the scanner gets through: those before the first one of
`maxScanTokenSize` bytes or more. -/
def scannedLines : List Str → List Str
  | [] => []
  | raw :: rest => if maxScanTokenSize ≤ byteLen raw then [] else raw :: scannedLines rest

/-- The block emitted for one file: header, the lines that pass among those
the scanner gets through, each followed by a newline, separator. -/
def fileBlock (f : Str × List Str) : Str := fullBlock (f.1, scannedLines f.2)

/-- The raw lines of a file with an end; none for any other content. -/
def Content.raw : Content → List Str
  | .lines raw => raw
  | _ => []

mutual
/-- Every non-directory entry of a tree, in walk order (the entries of a
directory by name), with its relative path, its name and its content. -/
def nonDirEntries (rel : Str) : Node → List (Str × Str × Content)
  | .broken _ => []
  | .file name content => [(rel, name, content)]
  | .dir _ _ entries => ((sortByName (nonDirEntriesAll rel entries)).map (fun p => p.2)).flatten
/-- The entries of a directory, each with its name and the non-directory
entries at or below it. -/
def nonDirEntriesAll (parent : Str) : List Node → List (Str × List (Str × Str × Content))
  | [] => []
  | n :: rest =>
    (n.name, nonDirEntries (relChild parent n.name) n) :: nonDirEntriesAll parent rest
end

/-- Of a list of non-directory entries, those whose name the Extension Matcher
accepts, each as a relative path and raw lines. -/
def matched (lower : Char → Char) (exts : List Str) (es : List (Str × Str × Content)) :
    List (Str × List Str) :=
  (es.filter (fun e => matchExt lower e.2.1 exts)).map (fun e => (e.1, e.2.2.raw))

/-- The files a complete walk is to emit: the non-directory entries of the
tree whose name the Extension Matcher accepts, in walk order. -/
def matchedFiles (lower : Char → Char) (exts : List Str) (rel : Str) (n : Node) :
    List (Str × List Str) :=
  matched lower exts (nonDirEntries rel n)

mutual
/-- Every entry of the tree with an accepted name is, when it can be opened,
a file with an end and not the output file of the run. -/
def filesEnd (lower : Char → Char) (exts : List Str) : Node → Bool
  | .broken _ => true
  | .file name content =>
    !matchExt lower name exts ||
      match content with
      | .unopenable => true
      | .lines _ => true
      | .stream _ => false
      | .sink => false
  | .dir _ _ entries => filesEndAll lower exts entries
/-- The same for every entry of a list. -/
def filesEndAll (lower : Char → Char) (exts : List Str) : List Node → Bool
  | [] => true
  | n :: rest => filesEnd lower exts n && filesEndAll lower exts rest
end

mutual
/-- No file-system error can stop the walk of the tree: every entry can be
examined, every directory listed, every file with an accepted name opened. -/
def noErrors (lower : Char → Char) (exts : List Str) : Node → Bool
  | .broken _ => false
  | .file name content =>
    !matchExt lower name exts ||
      match content with
      | .unopenable => false
      | _ => true
  | .dir _ listable entries => listable && noErrorsAll lower exts entries
/-- The same for every entry of a list. -/
def noErrorsAll (lower : Char → Char) (exts : List Str) : List Node → Bool
  | [] => true
  | n :: rest => noErrors lower exts n && noErrorsAll lower exts rest
end

/-- The tree found at a configured root of the local flow, when the root
resolves and exists, once the file `output` has been created. -/
def localNode (env : LocalEnv) (output rootPath : Str) : Option Node :=
  match env.abs rootPath with
  | none => none
  | some absRoot => env.stat output absRoot

/-- A configured root of the local flow that does not exist: it resolves to
an absolute path for which `os.Stat` reports that nothing is there. -/
def localMissing (env : LocalEnv) (output rootPath : Str) : Bool :=
  match env.abs rootPath with
  | none => false
  | some absRoot => (env.stat output absRoot).isNone

/-- What an existing configured root of the local flow contributes when it is
walked on its own; nothing for a root that does not exist. -/
def localContribution (fuel : Nat) (lower : Char → Char) (env : LocalEnv) (exts : List Str)
    (output rootPath : Str) : Option Str :=
  match localNode env output rootPath with
  | none => none
  | some node => some (walk fuel lower exts ".".toList node []).1

/-- A configured root of the github flow that does not exist. -/
def githubMissing (env : GithubEnv) (output relSrc : Str) : Bool :=
  (env.stat output relSrc).isNone

/-- What an existing configured root of the github flow contributes when it
is walked on its own; nothing for a root that does not exist. -/
def githubContribution (fuel : Nat) (lower : Char → Char) (env : GithubEnv) (exts : List Str)
    (output relSrc : Str) : Option Str :=
  match env.stat output relSrc with
  | none => none
  | some node => some (walk fuel lower exts (env.rel relSrc) node []).1

/-- Under every configured root of the local flow that exists, every file
with an accepted name has an end and is not the output file of the run. -/
def localRootsEnd (lower : Char → Char) (env : LocalEnv) (exts : List Str) (output : Str)
    (paths : List Str) : Bool :=
  paths.all (fun p =>
    match localNode env output p with
    | none => true
    | some n => filesEnd lower exts n)

/-- Under every configured root of the github flow that exists, every file
with an accepted name has an end and does not lead to the output file of the
run. -/
def githubRootsEnd (lower : Char → Char) (env : GithubEnv) (exts : List Str) (output : Str)
    (paths : List Str) : Bool :=
  paths.all (fun p =>
    match env.stat output p with
    | none => true
    | some n => filesEnd lower exts n)

/-- What walking `w` does to the output does not depend on the output so far:
it appends the same bytes and ends the same way, and not inside a scan loop. -/
def Additive (w : Str → Str × WalkEnd) : Prop :=
  ∃ o e, e ≠ WalkEnd.unfinished ∧ ∀ out, w out = (out ++ o, e)

/-- A raw line that the scan loop writes back as it is: shorter than
`maxScanTokenSize`, without a carriage return at its end, passed by both
patterns, and without a line feed inside. -/
def copied (l : Str) : Bool :=
  decide (byteLen l < maxScanTokenSize) && decide (dropCR l = l) &&
    !importRe.MatchString l && !exportRe.MatchString l && decide ('\n' ∉ l)

/-! ## Example data -/

/-- A tree with `.md`, `.mdx`, `.txt` and `.png` files, one of them in a
hidden directory. -/
def exampleTree : Node :=
  .dir "docs".toList true
    [.file "b.mdx".toList (.lines ["export const z = 1".toList, "body".toList]),
      .file "a.md".toList (.lines ["# A".toList, "import x from y;\r".toList, "text\r".toList]),
      .file "c.txt".toList (.lines ["plain".toList]),
      .file "d.png".toList .unopenable,
      .dir ".hidden".toList true [.file "e.MD".toList (.lines ["deep".toList])]]

/-- A tree whose first entry is a directory that cannot be listed, followed
by a Markdown file. -/
def unreadableTree : Node :=
  .dir "docs".toList true
    [.dir "a".toList false [], .file "b.md".toList (.lines ["hi".toList])]

/-- The working directory `/w` once the output file `output` has been created
in it: a note, the output file itself, and a last file. -/
def sinkTree (output : Str) : Node :=
  .dir "w".toList true
    [.file "notes.md".toList (.lines ["note".toList]),
      .file output .sink,
      .file "z.md".toList (.lines ["last".toList])]

/-- A tree with a file without an end (every line of it `x`), followed by a
Markdown file. -/
def streamTree : Node :=
  .dir "docs".toList true
    [.file "feed.md".toList (.stream (fun _ => "x".toList)),
      .file "z.md".toList (.lines ["last".toList])]

/-- Two matched files, with an `import` line in the first and an `export`
line in the second. -/
def exampleFiles : List (Str × List Str) :=
  [("a.md".toList, ["# A".toList, "import x from y;".toList, "text".toList]),
    ("sub/b.mdx".toList, ["export const z = 1".toList, "body\r".toList])]

/-- A file whose first line is `maxScanTokenSize` bytes long, followed by a
short one. -/
def longLineFiles : List (Str × List Str) :=
  [("big.md".toList, [List.replicate maxScanTokenSize 'a', "tail".toList])]

/-- The extension set `md`, `mdx`. -/
def mdExts : List Str := ["md".toList, "mdx".toList]

/-- A local file system with the single directory `/w/docs`; relative paths
resolve against `/w`, and the output file is created outside `/w/docs`. -/
def exampleLocalEnv : LocalEnv where
  abs := fun p => some ("/w/".toList ++ p)
  stat := fun _ a => if a = "/w/docs".toList then some exampleTree else none
  create := fun _ => true

/-- A local file system in which `.` is the working directory `/w`, where the
output file is created. -/
def sinkLocalEnv : LocalEnv where
  abs := fun p => if p = ".".toList then some "/w".toList else some ("/w/".toList ++ p)
  stat := fun output a => if a = "/w".toList then some (sinkTree output) else none
  create := fun _ => true

/-- A local file system with the single directory `/w/docs`, which holds a
file without an end. -/
def streamLocalEnv : LocalEnv where
  abs := fun p => some ("/w/".toList ++ p)
  stat := fun _ a => if a = "/w/docs".toList then some streamTree else none
  create := fun _ => true

/-- A clone that holds the single directory `docs`; the output file is
created outside the clone. -/
def exampleGithubEnv : GithubEnv where
  mkdirTemp := true
  clone := fun _ => true
  create := fun _ => true
  stat := fun _ p => if p = "docs".toList then some exampleTree else none
  rel := fun p => p

/-- The matching semantics of regular expressions. -/
inductive Re.Matches : Re → Str → Prop
  | eps : Re.Matches .eps []
  | cls (p : Char → Bool) (c : Char) : p c = true → Re.Matches (.cls p) [c]
  | altL (a b : Re) (s : Str) : Re.Matches a s → Re.Matches (.alt a b) s
  | altR (a b : Re) (s : Str) : Re.Matches b s → Re.Matches (.alt a b) s
  | cat (a b : Re) (u v : Str) : Re.Matches a u → Re.Matches b v → Re.Matches (.cat a b) (u ++ v)
  | starNil (a : Re) : Re.Matches (.star a) []
  | starCons (a : Re) (u v : Str) :
    Re.Matches a u → Re.Matches (.star a) v → Re.Matches (.star a) (u ++ v)

/-! ## Lemmas on the string functions -/

theorem Split_ne_nil (s : Str) (sep : Char) : Split s sep ≠ [] := by
  induction s with
  | nil => simp [Split]
  | cons c cs ih =>
    unfold Split
    split
    · simp
    · split <;> simp

theorem Split_nosep {s : Str} {sep : Char} (h : sep ∉ s) : Split s sep = [s] := by
  induction s with
  | nil => simp [Split]
  | cons c cs ih =>
    have hc : c ≠ sep := fun e => h (by simp [e])
    have hcs : sep ∉ cs := fun e => h (by simp [e])
    unfold Split
    simp [hc, ih hcs]

theorem Split_append_sep (a u : Str) (sep : Char) :
    Split (a ++ sep :: u) sep = Split a sep ++ Split u sep := by
  induction a with
  | nil => simp [Split]
  | cons c cs ih =>
    by_cases hc : c = sep
    · simp [Split, hc, ← ih]
    · have h1 : Split (c :: cs) sep =
          match Split cs sep with
          | [] => [[c]]
          | seg :: rest => (c :: seg) :: rest := by
        conv_lhs => unfold Split
        simp [hc]
      have h2 : Split (c :: (cs ++ sep :: u)) sep =
          match Split (cs ++ sep :: u) sep with
          | [] => [[c]]
          | seg :: rest => (c :: seg) :: rest := by
        conv_lhs => unfold Split
        simp [hc]
      rw [List.cons_append, h2, h1, ih]
      cases hs : Split cs sep with
      | nil => exact absurd hs (Split_ne_nil cs sep)
      | cons seg rest => simp

theorem Split_sepfree (s : Str) (sep : Char) : ∀ p ∈ Split s sep, sep ∉ p := by
  induction s with
  | nil => simp [Split]
  | cons c cs ih =>
    by_cases hc : c = sep
    · intro p hp
      simp [Split, hc] at hp
      rcases hp with rfl | hp
      · simp
      · exact ih p hp
    · have h1 : Split (c :: cs) sep =
          match Split cs sep with
          | [] => [[c]]
          | seg :: rest => (c :: seg) :: rest := by
        conv_lhs => unfold Split
        simp [hc]
      rw [h1]
      cases hs : Split cs sep with
      | nil => exact absurd hs (Split_ne_nil cs sep)
      | cons seg rest =>
        rw [hs] at ih
        intro p hp
        simp at hp
        rcases hp with rfl | hp
        · have := ih seg (by simp)
          simp
          exact ⟨fun e => hc e.symm, this⟩
        · exact ih p (by simp [hp])

theorem Join_cons (a : Str) (rest : List Str) (sep : Str) (h : rest ≠ []) :
    Join (a :: rest) sep = a ++ sep ++ Join rest sep := by
  cases rest with
  | nil => exact absurd rfl h
  | cons b t => simp [Join]

theorem Join_append (xs ys : List Str) (sep : Str) (hx : xs ≠ []) (hy : ys ≠ []) :
    Join (xs ++ ys) sep = Join xs sep ++ sep ++ Join ys sep := by
  induction xs with
  | nil => exact absurd rfl hx
  | cons a t ih =>
    cases t with
    | nil => simp [Join_cons _ _ _ hy, Join]
    | cons b t2 =>
      have h1 : (a :: b :: t2) ++ ys = a :: ((b :: t2) ++ ys) := rfl
      rw [h1, Join_cons _ _ _ (by simp), ih (by simp), Join_cons a (b :: t2) sep (by simp)]
      simp

theorem Join_Split (s : Str) (sep : Char) : Join (Split s sep) [sep] = s := by
  induction s with
  | nil => simp [Split, Join]
  | cons c cs ih =>
    by_cases hc : c = sep
    · have h1 : Split (c :: cs) sep = [] :: Split cs sep := by
        conv_lhs => unfold Split
        simp [hc]
      rw [h1, Join_cons _ _ _ (Split_ne_nil cs sep), ih]
      simp [hc]
    · have h1 : Split (c :: cs) sep =
          match Split cs sep with
          | [] => [[c]]
          | seg :: rest => (c :: seg) :: rest := by
        conv_lhs => unfold Split
        simp [hc]
      rw [h1]
      cases hs : Split cs sep with
      | nil => exact absurd hs (Split_ne_nil cs sep)
      | cons seg rest =>
        rw [hs] at ih
        cases rest with
        | nil =>
          simp [Join] at ih ⊢
          exact ih
        | cons r rs =>
          simp only [Join] at ih ⊢
          rw [← ih]
          simp

theorem Split_Join (parts : List Str) (sep : Char) (hne : parts ≠ [])
    (h : ∀ p ∈ parts, sep ∉ p) : Split (Join parts [sep]) sep = parts := by
  induction parts with
  | nil => exact absurd rfl hne
  | cons a t ih =>
    cases t with
    | nil => simpa [Join] using Split_nosep (h a (by simp))
    | cons b t2 =>
      rw [Join_cons _ _ _ (by simp)]
      have : a ++ [sep] ++ Join (b :: t2) [sep] = a ++ sep :: Join (b :: t2) [sep] := by simp
      rw [this, Split_append_sep, Split_nosep (h a (by simp)),
        ih (by simp) (fun p hp => h p (by simp [hp]))]
      simp

theorem HasPrefix_append (a b : Str) : HasPrefix (a ++ b) a = true := by
  simp [HasPrefix]

theorem TrimPrefix_append (a b : Str) : TrimPrefix (a ++ b) a = b := by
  simp [TrimPrefix, HasPrefix_append]

theorem TrimPrefix_self (a : Str) : TrimPrefix a a = [] := by
  have := TrimPrefix_append a []
  simpa using this

theorem TrimPrefix_slash_cons (s : Str) : TrimPrefix ('/' :: s) "/".toList = s := by
  simp [TrimPrefix, HasPrefix]

theorem TrimPrefix_nil (p : Str) : TrimPrefix [] p = [] := by
  simp [TrimPrefix]

theorem LastIndex_none_of_not_mem {c : Char} {s : Str} (sub : Str) (h : c ∉ s) :
    LastIndex s (c :: sub) = none := by
  induction s with
  | nil => simp [LastIndex]
  | cons x xs ih =>
    have hx : c ≠ x := fun e => h (by simp [e])
    have hxs : c ∉ xs := fun e => h (by simp [e])
    simp [LastIndex, ih hxs]
    intro e
    exact absurd e hx

theorem LastIndex_last (a w sub : Str) (c : Char) (hw : c ∉ w)
    (hp : (c :: sub).isPrefixOf (c :: w) = true) :
    LastIndex (a ++ c :: w) (c :: sub) = some a.length := by
  induction a with
  | nil =>
    simp only [List.nil_append, LastIndex, LastIndex_none_of_not_mem sub hw, hp]
    simp
  | cons x xs ih =>
    simp [LastIndex, ih]

theorem LastIndex_some {s sub : Str} {i : Nat} (h : LastIndex s sub = some i) :
    ∃ pre post, s = pre ++ sub ++ post ∧ pre.length = i := by
  induction s generalizing i with
  | nil =>
    simp only [LastIndex] at h
    split at h
    · rename_i hs
      simp at h
      exact ⟨[], [], by simp [hs], by simpa using h⟩
    · simp at h
  | cons x xs ih =>
    simp only [LastIndex] at h
    cases hr : LastIndex xs sub with
    | some k =>
      rw [hr] at h
      simp at h
      obtain ⟨pre, post, e, hl⟩ := ih hr
      exact ⟨x :: pre, post, by simp [e], by simp [hl, h]⟩
    | none =>
      rw [hr] at h
      simp only at h
      split at h
      · rename_i hp
        simp at h
        obtain ⟨t, ht⟩ := List.isPrefixOf_iff_prefix.mp hp
        exact ⟨[], t, by simp [ht], by simpa using h⟩
      · simp at h

theorem isNumeric_iff (s : Str) : isNumeric s = true ↔ ∀ c ∈ s, isDecimalDigit c = true := by
  simp [isNumeric, isDecimalDigit, List.all_eq_true]

theorem slash_not_mem_of_isNumeric {s : Str} (h : isNumeric s = true) : '/' ∉ s := by
  intro hm
  have := (isNumeric_iff s).mp h '/' hm
  revert this
  decide

theorem isVersionSegment_iff (seg : Str) :
    isVersionSegment seg = true ↔ ∃ t, seg = 'v' :: t ∧ t ≠ [] ∧ isNumeric t = true := by
  constructor
  · intro h
    unfold isVersionSegment at h
    split at h
    · rename_i d ds
      refine ⟨d :: ds, rfl, by simp, ?_⟩
      rw [isNumeric_iff]
      simpa [List.all_eq_true] using h
    · simp at h
  · rintro ⟨t, rfl, hne, hnum⟩
    cases t with
    | nil => exact absurd rfl hne
    | cons d ds =>
      rw [isNumeric_iff] at hnum
      simpa [isVersionSegment, List.all_eq_true] using hnum

theorem versionTest_eq (seg : Str) :
    versionTest seg = .ok (HasPrefix seg "v".toList && isNumeric (seg.drop 1)) := by
  unfold versionTest
  by_cases h : HasPrefix seg "v".toList = true
  · have hl : 1 ≤ seg.length := by
      cases seg with
      | nil => simp [HasPrefix] at h
      | cons c cs => simp
    rw [if_pos h, h]
    simp [sliceFrom, hl]
  · rw [if_neg h]
    simp only [Bool.not_eq_true] at h
    rw [h]
    simp

theorem Split_snoc (pre w : Str) (h : '/' ∉ w) :
    Split (pre ++ '/' :: w) '/' = Split pre '/' ++ [w] := by
  rw [Split_append_sep, Split_nosep h]

theorem Join_snoc (init : List Str) (l sep : Str) (h : init ≠ []) :
    Join (init ++ [l]) sep = Join init sep ++ sep ++ l := by
  rw [Join_append init [l] sep h (by simp)]
  simp [Join]

theorem root_decomp (root : Str) (hs : '/' ∈ root) :
    ∃ pre w, root = pre ++ '/' :: w ∧ '/' ∉ w := by
  have hne := Split_ne_nil root '/'
  have hfree := Split_sepfree root '/'
  have hjoin := Join_Split root '/'
  have hsplit := (List.dropLast_append_getLast hne).symm
  by_cases hi : (Split root '/').dropLast = []
  · rw [hi] at hsplit
    rw [hsplit] at hjoin
    simp only [List.nil_append, Join] at hjoin
    have := hfree _ (List.getLast_mem hne)
    rw [hjoin] at this
    exact absurd hs this
  · refine ⟨Join (Split root '/').dropLast ['/'], (Split root '/').getLast hne, ?_,
      hfree _ (List.getLast_mem hne)⟩
    have h2 := Join_snoc (Split root '/').dropLast ((Split root '/').getLast hne) ['/'] hi
    rw [← hsplit, hjoin] at h2
    simpa using h2

theorem lastSegment_snoc (pre w : Str) (h : '/' ∉ w) : lastSegment (pre ++ '/' :: w) = w := by
  simp [lastSegment, Split_snoc pre w h]

theorem Join_dropLast_snoc (pre w : Str) (h : '/' ∉ w) :
    Join (Split (pre ++ '/' :: w) '/').dropLast "/".toList = pre := by
  rw [Split_snoc pre w h, List.dropLast_concat]
  exact Join_Split pre '/'

theorem cloneUrl_at (p2 post : Str)
    (h : LastIndex (p2 ++ '/' :: 'v' :: post) "/v".toList = some p2.length) :
    cloneUrl (p2 ++ '/' :: 'v' :: post) =
      .ok (if post ≠ [] ∧ isNumeric post = true then "https://".toList ++ p2
        else "https://".toList ++ (p2 ++ '/' :: 'v' :: post)) := by
  have h1 : sliceFrom (p2 ++ '/' :: 'v' :: post) (p2.length + 1) = .ok ('v' :: post) := by
    have e : p2 ++ '/' :: 'v' :: post = (p2 ++ ['/']) ++ 'v' :: post := by simp
    have hl : p2.length + 1 = (p2 ++ ['/']).length := by simp
    unfold sliceFrom
    rw [if_pos (by simp), e, hl, List.drop_left]
  have h2 : sliceTo (p2 ++ '/' :: 'v' :: post) p2.length = .ok p2 := by
    unfold sliceTo
    rw [if_pos (by simp), List.take_left]
  unfold cloneUrl
  rw [h]
  simp only [h1, h2]
  cases post with
  | nil => simp
  | cons d ds =>
    by_cases hn : isNumeric (d :: ds) = true
    · simp [sliceFrom, hn]
    · simp [sliceFrom, hn]

/-- The clone URL of any root path: the last segment and its slash are cut
exactly when the root has a slash and its last segment is a version segment. -/
theorem cloneUrl_eq (root : Str) :
    cloneUrl root =
      .ok (if '/' ∈ root ∧ isVersionSegment (lastSegment root) = true then
          "https://".toList ++ Join (Split root '/').dropLast "/".toList
        else "https://".toList ++ root) := by
  by_cases hs : '/' ∈ root
  · obtain ⟨pre, w, rfl, hw⟩ := root_decomp root hs
    rw [lastSegment_snoc pre w hw, Join_dropLast_snoc pre w hw]
    by_cases hv : isVersionSegment w = true
    · obtain ⟨t, rfl, hne, hnum⟩ := (isVersionSegment_iff w).mp hv
      have hL : LastIndex (pre ++ '/' :: 'v' :: t) "/v".toList = some pre.length :=
        LastIndex_last pre ('v' :: t) ['v'] '/' hw (by simp)
      rw [cloneUrl_at pre t hL]
      simp [hne, hnum, hv]
    · cases hL : LastIndex (pre ++ '/' :: w) "/v".toList with
      | none =>
        unfold cloneUrl
        rw [hL]
        simp [hv]
      | some idx =>
        obtain ⟨p2, post, e, hlen⟩ := LastIndex_some hL
        have e2 : pre ++ '/' :: w = p2 ++ '/' :: 'v' :: post := by simpa using e
        rw [e2] at hL ⊢
        rw [← hlen] at hL
        rw [cloneUrl_at p2 post hL]
        have hcond : ¬ (post ≠ [] ∧ isNumeric post = true) := by
          rintro ⟨hne, hnum⟩
          have hfree : '/' ∉ 'v' :: post := by
            simp only [List.mem_cons, not_or]
            exact ⟨by decide, slash_not_mem_of_isNumeric hnum⟩
          have h1 := lastSegment_snoc p2 ('v' :: post) hfree
          rw [← e2, lastSegment_snoc pre w hw] at h1
          exact hv ((isVersionSegment_iff w).mpr ⟨post, h1, hne, hnum⟩)
        simp [hcond, hv]
  · have hL : LastIndex root "/v".toList = none := LastIndex_none_of_not_mem ['v'] hs
    unfold cloneUrl
    rw [hL]
    simp [hs]

theorem pathAfterRepo_eq (pkg root : Str) :
    pathAfterRepo pkg root = .ok (
      let repoBase :=
        if 3 ≤ (Split pkg '/').length then Join ((Split pkg '/').take 3) "/".toList else root
      let after := TrimPrefix (TrimPrefix pkg repoBase) "/".toList
      let seg0 := (Split after '/').headD []
      if (HasPrefix seg0 "v".toList && isNumeric (seg0.drop 1)) = true then
        TrimPrefix (TrimPrefix after seg0) "/".toList
      else after) := by
  have key : ∀ after : Str,
      (if 0 < (Split after '/').length then
        match index (Split after '/') 0 with
        | .error e => .error e
        | .ok seg0 =>
          match versionTest seg0 with
          | .error e => .error e
          | .ok true => .ok (TrimPrefix (TrimPrefix after seg0) "/".toList)
          | .ok false => .ok after
      else .ok after : Except GoFail Str) =
      .ok (if (HasPrefix ((Split after '/').headD []) "v".toList &&
            isNumeric (((Split after '/').headD []).drop 1)) = true then
          TrimPrefix (TrimPrefix after ((Split after '/').headD [])) "/".toList
        else after) := by
    intro after
    cases hs : Split after '/' with
    | nil => exact absurd hs (Split_ne_nil after '/')
    | cons seg0 rest =>
      simp only [List.length_cons, Nat.zero_lt_succ, if_true, index, List.get?_cons_zero,
        List.headD_cons, versionTest_eq]
      cases hb : (HasPrefix seg0 "v".toList && isNumeric (List.drop 1 seg0)) <;> simp
  unfold pathAfterRepo
  by_cases h3 : 3 ≤ (Split pkg '/').length
  · simp only [h3, if_true, sliceTo]
    exact key _
  · simp only [h3, if_false]
    exact key _

theorem deriveRoot_explicit (pkg root : Str) (h : root ≠ []) : deriveRoot pkg root = .ok root := by
  simp [deriveRoot, h]

theorem deriveRoot_eq (pkg : Str) :
    deriveRoot pkg [] = .ok (
      if 3 ≤ (Split pkg '/').length then
        if (decide (4 ≤ (Split pkg '/').length) &&
            (HasPrefix ((Split pkg '/').getD 3 []) "v".toList &&
              isNumeric (((Split pkg '/').getD 3 []).drop 1))) = true then
          Join ((Split pkg '/').take 4) "/".toList
        else Join ((Split pkg '/').take 3) "/".toList
      else pkg) := by
  unfold deriveRoot
  rcases hp : Split pkg '/' with _ | ⟨a, _ | ⟨b, _ | ⟨c, _ | ⟨d, rest⟩⟩⟩⟩
  · simp
  · simp
  · simp
  · simp [sliceTo]
  · simp only [List.length_cons, sliceTo, index, versionTest_eq]
    cases h1 : HasPrefix d ['v'] <;> cases h2 : isNumeric (List.tail d) <;>
      simp [h1, h2, Join]

theorem TrimPrefix_Join_head (d : Str) (rest : List Str) :
    TrimPrefix (TrimPrefix (Join (d :: rest) "/".toList) d) "/".toList = Join rest "/".toList := by
  cases rest with
  | nil => simp [Join, TrimPrefix_self, TrimPrefix_nil]
  | cons r rs =>
    rw [Join_cons d (r :: rs) _ (by simp), List.append_assoc, TrimPrefix_append]
    exact TrimPrefix_slash_cons _

theorem goResolve_short (pkg : Str) (hne : pkg ≠ []) (h : (Split pkg '/').length ≤ 3) :
    ∃ url, cloneUrl pkg = .ok url ∧
      goResolve pkg [] = .ok ⟨pkg, url, [], ".".toList⟩ := by
  have hroot : deriveRoot pkg [] = .ok pkg := by
    rw [deriveRoot_eq]
    have hj := Join_Split pkg '/'
    rcases hp : Split pkg '/' with _ | ⟨a, _ | ⟨b, _ | ⟨c, _ | ⟨d, rest⟩⟩⟩⟩
    · simp
    · simp
    · simp
    · rw [hp] at hj
      simp only [List.length_cons, List.length_nil]
      simp only [List.take, ← hj]
      simp
    · rw [hp] at h
      simp at h
  have hafter : pathAfterRepo pkg pkg = .ok [] := by
    rw [pathAfterRepo_eq]
    have hbase : (if 3 ≤ (Split pkg '/').length then Join ((Split pkg '/').take 3) "/".toList
        else pkg) = pkg := by
      split
      · have hj := Join_Split pkg '/'
        rw [List.take_of_length_le h]
        exact hj
      · rfl
    simp only [hbase, TrimPrefix_self, TrimPrefix_nil]
    simp [Split, HasPrefix]
  obtain ⟨url, hurl⟩ : ∃ url, cloneUrl pkg = .ok url := ⟨_, cloneUrl_eq pkg⟩
  refine ⟨url, hurl, ?_⟩
  unfold goResolve
  rw [if_neg hne, hroot]
  simp only [hurl, hafter]
  simp [relPath]

theorem goResolve_long (pkg a b c d : Str) (rest : List Str)
    (hp : Split pkg '/' = a :: b :: c :: d :: rest) :
    ∃ url,
      cloneUrl (if versionLike d = true then Join [a, b, c, d] "/".toList
        else Join [a, b, c] "/".toList) = .ok url ∧
      goResolve pkg [] =
        .ok ⟨if versionLike d = true then Join [a, b, c, d] "/".toList
            else Join [a, b, c] "/".toList,
          url,
          if versionLike d = true then Join rest "/".toList else Join (d :: rest) "/".toList,
          relPath (if versionLike d = true then Join rest "/".toList
            else Join (d :: rest) "/".toList)⟩ := by
  have hne : pkg ≠ [] := by
    rintro rfl
    simp [Split] at hp
  have hj := Join_Split pkg '/'
  rw [hp] at hj
  have hfree := Split_sepfree pkg '/'
  rw [hp] at hfree
  have hpkg : pkg = Join [a, b, c] "/".toList ++ '/' :: Join (d :: rest) "/".toList := by
    have := Join_append [a, b, c] (d :: rest) "/".toList (by simp) (by simp)
    simp only [List.cons_append, List.nil_append] at this
    rw [← hj]
    simpa using this
  have hroot : deriveRoot pkg [] = .ok (if versionLike d = true then Join [a, b, c, d] "/".toList
        else Join [a, b, c] "/".toList) := by
    rw [deriveRoot_eq, hp]
    simp [versionLike]
  have hafter : ∀ root, pathAfterRepo pkg root =
      .ok (if versionLike d = true then Join rest "/".toList else Join (d :: rest) "/".toList) := by
    intro root
    rw [pathAfterRepo_eq]
    have h3 : 3 ≤ (Split pkg '/').length := by rw [hp]; simp
    have hbase : Join ((Split pkg '/').take 3) "/".toList = Join [a, b, c] "/".toList := by
      rw [hp]; rfl
    have h1 : TrimPrefix (TrimPrefix pkg (Join [a, b, c] "/".toList)) "/".toList =
        Join (d :: rest) "/".toList := by
      conv_lhs => rw [hpkg]
      rw [TrimPrefix_append, TrimPrefix_slash_cons]
    have h2 : Split (Join (d :: rest) "/".toList) '/' = d :: rest :=
      Split_Join (d :: rest) '/' (by simp) (fun q hq => hfree q (by simp at hq ⊢; tauto))
    simp only [h3, if_true, hbase, h1, h2, List.headD_cons, TrimPrefix_Join_head]
    rfl
  obtain ⟨url, hurl⟩ : ∃ url, cloneUrl (if versionLike d = true then Join [a, b, c, d] "/".toList
        else Join [a, b, c] "/".toList) = .ok url := ⟨_, cloneUrl_eq _⟩
  refine ⟨url, hurl, ?_⟩
  unfold goResolve
  rw [if_neg hne, hroot]
  simp only [hurl, hafter]

theorem versionLike_iff (d : Str) :
    versionLike d = true ↔ ∃ t, d = 'v' :: t ∧ isNumeric t = true := by
  cases d with
  | nil => simp [versionLike, HasPrefix]
  | cons c cs =>
    simp only [versionLike, HasPrefix, Bool.and_eq_true, List.drop_one, List.tail_cons]
    constructor
    · rintro ⟨h1, h2⟩
      have hc : c = 'v' := (by simpa using h1 : 'v' = c).symm
      exact ⟨cs, by rw [hc], h2⟩
    · rintro ⟨t, e, h2⟩
      injection e with e1 e2
      subst e1 e2
      exact ⟨by simp, h2⟩

theorem versionLike_of_isVersionSegment {d : Str} (h : isVersionSegment d = true) :
    versionLike d = true := by
  obtain ⟨t, e, _, hn⟩ := (isVersionSegment_iff d).mp h
  exact (versionLike_iff d).mpr ⟨t, e, hn⟩

theorem isVersionSegment_of_versionLike {d : Str} (h : versionLike d = true)
    (hbare : d ≠ "v".toList) : isVersionSegment d = true := by
  obtain ⟨t, e, hn⟩ := (versionLike_iff d).mp h
  refine (isVersionSegment_iff d).mpr ⟨t, e, ?_, hn⟩
  rintro rfl
  exact hbare e

theorem Join_ne_nil (a : Str) (rest : List Str) (sep : Str) (ha : a ≠ []) :
    Join (a :: rest) sep ≠ [] := by
  cases rest with
  | nil => simpa [Join] using ha
  | cons b t => simp [Join, ha]

theorem Join4 (a b c d : Str) :
    Join [a, b, c, d] "/".toList = Join [a, b, c] "/".toList ++ '/' :: d := by
  simp [Join]

theorem Join3 (a b c : Str) :
    Join [a, b, c] "/".toList = Join [a, b] "/".toList ++ '/' :: c := by
  simp [Join]

theorem goResolve_total (pkg root : Str) (hne : pkg ≠ []) :
    ∃ gitRoot url after, deriveRoot pkg root = .ok gitRoot ∧ cloneUrl gitRoot = .ok url ∧
      pathAfterRepo pkg gitRoot = .ok after ∧
      goResolve pkg root = .ok ⟨gitRoot, url, after, relPath after⟩ := by
  obtain ⟨gitRoot, hroot⟩ : ∃ g, deriveRoot pkg root = .ok g := by
    by_cases hr : root = []
    · subst hr
      exact ⟨_, deriveRoot_eq pkg⟩
    · exact ⟨_, deriveRoot_explicit pkg root hr⟩
  refine ⟨gitRoot, _, _, hroot, cloneUrl_eq gitRoot, pathAfterRepo_eq pkg gitRoot, ?_⟩
  unfold goResolve
  rw [if_neg hne, hroot]
  simp only [cloneUrl_eq, pathAfterRepo_eq]

/-- C2. With no explicit root, a package path of at least four segments whose
fourth segment is `v` followed by one or more digits resolves to: the first
four segments as RepoRoot, `https://` and the first three segments as clone
URL, the segments after the fourth as RelativePath, and `./` + RelativePath
(or `.` when RelativePath is empty) as doc path. -/
theorem resolver_version_handling (pkg : Str) (h4 : 4 ≤ (Split pkg '/').length)
    (hv : isVersionSegment ((Split pkg '/').getD 3 []) = true) :
    goResolve pkg [] = .ok
      { repoRoot := Join ((Split pkg '/').take 4) "/".toList
        cloneURL := "https://".toList ++ Join ((Split pkg '/').take 3) "/".toList
        relativePath := Join ((Split pkg '/').drop 4) "/".toList
        docPath :=
          if Join ((Split pkg '/').drop 4) "/".toList ≠ [] then
            "./".toList ++ Join ((Split pkg '/').drop 4) "/".toList
          else ".".toList } := by
  rcases hp : Split pkg '/' with _ | ⟨a, _ | ⟨b, _ | ⟨c, _ | ⟨d, rest⟩⟩⟩⟩
  · rw [hp] at h4; simp at h4
  · rw [hp] at h4; simp at h4
  · rw [hp] at h4; simp at h4
  · rw [hp] at h4; simp at h4
  · rw [hp] at hv
    have hd : isVersionSegment d = true := by simpa using hv
    have hvl := versionLike_of_isVersionSegment hd
    have hfree : '/' ∉ d := Split_sepfree pkg '/' d (by rw [hp]; simp)
    obtain ⟨url, hurl, hres⟩ := goResolve_long pkg a b c d rest hp
    rw [if_pos hvl] at hurl
    rw [cloneUrl_eq, Join4, lastSegment_snoc _ d hfree, Join_dropLast_snoc _ d hfree] at hurl
    simp only [List.mem_append, List.mem_cons, true_or, or_true, hd, and_self, if_true] at hurl
    injection hurl with hurl
    rw [hres, ← hurl]
    simp only [hvl, if_true, relPath]
    rfl

/-- C3 (amended). With no explicit root, a package path of at least four
segments, none of them a version segment and the fourth not the bare `v`,
resolves to: the first three segments as RepoRoot, `https://` + RepoRoot as
clone URL, the remaining segments as RelativePath, and `./` + RelativePath as
doc path when RelativePath is not empty, `.` when it is. -/
theorem resolver_plain_decomposition (pkg : Str) (h4 : 4 ≤ (Split pkg '/').length)
    (hnv : ∀ seg ∈ Split pkg '/', isVersionSegment seg = false)
    (hbare : (Split pkg '/').getD 3 [] ≠ "v".toList) :
    goResolve pkg [] = .ok
      { repoRoot := Join ((Split pkg '/').take 3) "/".toList
        cloneURL := "https://".toList ++ Join ((Split pkg '/').take 3) "/".toList
        relativePath := Join ((Split pkg '/').drop 3) "/".toList
        docPath :=
          if Join ((Split pkg '/').drop 3) "/".toList ≠ [] then
            "./".toList ++ Join ((Split pkg '/').drop 3) "/".toList
          else ".".toList } := by
  rcases hp : Split pkg '/' with _ | ⟨a, _ | ⟨b, _ | ⟨c, _ | ⟨d, rest⟩⟩⟩⟩
  · rw [hp] at h4; simp at h4
  · rw [hp] at h4; simp at h4
  · rw [hp] at h4; simp at h4
  · rw [hp] at h4; simp at h4
  · rw [hp] at hnv hbare
    have hd : isVersionSegment d = false := hnv d (by simp)
    have hc : isVersionSegment c = false := hnv c (by simp)
    have hbare2 : d ≠ "v".toList := by simpa using hbare
    have hvl : ¬ versionLike d = true := fun h => by
      rw [isVersionSegment_of_versionLike h hbare2] at hd
      exact Bool.noConfusion hd
    have hfree : '/' ∉ c := Split_sepfree pkg '/' c (by rw [hp]; simp)
    obtain ⟨url, hurl, hres⟩ := goResolve_long pkg a b c d rest hp
    rw [if_neg hvl] at hurl
    rw [cloneUrl_eq, Join3, lastSegment_snoc _ c hfree] at hurl
    simp only [hc, Bool.false_eq_true, and_false, if_false] at hurl
    rw [← Join3] at hurl
    injection hurl with hurl
    rw [hres, ← hurl]
    simp only [hvl, Bool.false_eq_true, if_false, relPath]
    rfl

/-- C4. Whatever the package path and the explicit root, the resolver
succeeds, an explicit root is the RepoRoot as given, and for a RepoRoot that
contains a slash the clone URL is `https://` + RepoRoot without its last
segment and the slash before it when that segment is a version segment, and
`https://` + RepoRoot unchanged when it is not. -/
theorem clone_url_rule (pkg root : Str) (hne : pkg ≠ []) :
    ∃ r, goResolve pkg root = .ok r ∧ (root ≠ [] → r.repoRoot = root) ∧
      ('/' ∈ r.repoRoot →
        (isVersionSegment (lastSegment r.repoRoot) = true →
          r.cloneURL = "https://".toList ++ Join (Split r.repoRoot '/').dropLast "/".toList) ∧
        (isVersionSegment (lastSegment r.repoRoot) = false →
          r.cloneURL = "https://".toList ++ r.repoRoot)) := by
  obtain ⟨gitRoot, url, after, hroot, hurl, _, hres⟩ := goResolve_total pkg root hne
  refine ⟨_, hres, ?_, ?_⟩
  · intro hr
    rw [deriveRoot_explicit pkg root hr] at hroot
    injection hroot with hroot
    exact hroot.symm
  · intro hs
    rw [cloneUrl_eq] at hurl
    injection hurl with hurl
    constructor
    · intro hv
      rw [← hurl, if_pos ⟨hs, hv⟩]
    · intro hv
      rw [← hurl, if_neg (by simp [hv])]

/-- C5. With no explicit root, for a package path whose segments are all
non-empty, RepoRoot rejoined with RelativePath (with a slash between them
only when RelativePath is not empty) is the package path again; and either
RepoRoot is the first three segments and RelativePath all that follow them,
or RepoRoot is the first four segments and RelativePath all that follow
those: the fourth segment goes to RepoRoot exactly when it leaves
RelativePath, and no further segment is removed. -/
theorem resolver_rejoin (pkg : Str) (hseg : ∀ seg ∈ Split pkg '/', seg ≠ []) :
    ∃ r, goResolve pkg [] = .ok r ∧
      (if r.relativePath = [] then r.repoRoot
        else r.repoRoot ++ "/".toList ++ r.relativePath) = pkg ∧
      ((r.repoRoot = Join ((Split pkg '/').take 3) "/".toList ∧
          r.relativePath = Join ((Split pkg '/').drop 3) "/".toList) ∨
        (r.repoRoot = Join ((Split pkg '/').take 4) "/".toList ∧
          r.relativePath = Join ((Split pkg '/').drop 4) "/".toList)) := by
  have hne : pkg ≠ [] := by
    rintro rfl
    exact hseg [] (by simp [Split]) rfl
  have hj := Join_Split pkg '/'
  by_cases hlen : (Split pkg '/').length ≤ 3
  · obtain ⟨url, _, hres⟩ := goResolve_short pkg hne hlen
    refine ⟨_, hres, by simp, Or.inl ⟨?_, ?_⟩⟩
    · rw [List.take_of_length_le hlen]
      exact hj.symm
    · rw [List.drop_of_length_le hlen]
      rfl
  · rcases hp : Split pkg '/' with _ | ⟨a, _ | ⟨b, _ | ⟨c, _ | ⟨d, rest⟩⟩⟩⟩
    · rw [hp] at hlen; simp at hlen
    · rw [hp] at hlen; simp at hlen
    · rw [hp] at hlen; simp at hlen
    · rw [hp] at hlen; simp at hlen
    · obtain ⟨url, _, hres⟩ := goResolve_long pkg a b c d rest hp
      rw [hp] at hj hseg
      refine ⟨_, hres, ?_, ?_⟩
      · by_cases hvl : versionLike d = true
        · simp only [hvl, if_true]
          cases rest with
          | nil => simpa [Join] using hj
          | cons r rs =>
            have hr : Join (r :: rs) "/".toList ≠ [] :=
              Join_ne_nil r rs _ (hseg r (by simp))
            rw [if_neg hr, ← hj]
            have := Join_append [a, b, c, d] (r :: rs) "/".toList (by simp) (by simp)
            simpa using this.symm
        · simp only [hvl, Bool.false_eq_true, if_false]
          have hr : Join (d :: rest) "/".toList ≠ [] :=
            Join_ne_nil d rest _ (hseg d (by simp))
          rw [if_neg hr, ← hj]
          have := Join_append [a, b, c] (d :: rest) "/".toList (by simp) (by simp)
          simpa using this.symm
      · by_cases hvl : versionLike d = true
        · right
          simp [hvl]
        · left
          simp [hvl]

/-- C10. For every non-empty package path and every explicit root the
resolver yields a result: no index or slice it evaluates is out of range.
With fewer than three segments and no explicit root, RepoRoot is the package
path itself, RelativePath is empty and the doc path is `.`. -/
theorem resolver_total (pkg root : Str) (hne : pkg ≠ []) :
    (∃ r, goResolve pkg root = .ok r) ∧
      ((Split pkg '/').length < 3 →
        ∃ url, goResolve pkg [] = .ok ⟨pkg, url, [], ".".toList⟩) := by
  constructor
  · obtain ⟨gitRoot, url, after, _, _, _, hres⟩ := goResolve_total pkg root hne
    exact ⟨_, hres⟩
  · intro h
    obtain ⟨url, _, hres⟩ := goResolve_short pkg hne (by omega)
    exact ⟨url, hres⟩

/-! ## The derivative matcher decides the matching semantics -/

theorem Matches_empty_iff (s : Str) : Re.Matches .empty s ↔ False := by
  constructor
  · intro h; cases h
  · intro h; exact h.elim

theorem Matches_eps_iff (s : Str) : Re.Matches .eps s ↔ s = [] := by
  constructor
  · intro h; cases h; rfl
  · rintro rfl; exact .eps

theorem Matches_cls_iff (p : Char → Bool) (s : Str) :
    Re.Matches (.cls p) s ↔ ∃ c, s = [c] ∧ p c = true := by
  constructor
  · intro h
    cases h with
    | cls _ c hc => exact ⟨c, rfl, hc⟩
  · rintro ⟨c, rfl, hc⟩
    exact .cls p c hc

theorem Matches_alt_iff (a b : Re) (s : Str) :
    Re.Matches (.alt a b) s ↔ Re.Matches a s ∨ Re.Matches b s := by
  constructor
  · intro h
    cases h with
    | altL _ _ _ h => exact Or.inl h
    | altR _ _ _ h => exact Or.inr h
  · rintro (h | h)
    · exact .altL a b s h
    · exact .altR a b s h

theorem Matches_cat_iff (a b : Re) (s : Str) :
    Re.Matches (.cat a b) s ↔ ∃ u v, s = u ++ v ∧ Re.Matches a u ∧ Re.Matches b v := by
  constructor
  · intro h
    cases h with
    | cat _ _ u v hu hv => exact ⟨u, v, rfl, hu, hv⟩
  · rintro ⟨u, v, rfl, hu, hv⟩
    exact .cat a b u v hu hv

theorem Matches_nil_nullable {r : Re} {s : Str} (h : Re.Matches r s) (hs : s = []) :
    r.nullable = true := by
  induction h with
  | eps => rfl
  | cls p c hc => simp at hs
  | altL a b s _ ih => simp [Re.nullable, ih hs]
  | altR a b s _ ih => simp [Re.nullable, ih hs]
  | cat a b u v _ _ iha ihb =>
    have hu : u = [] := (List.append_eq_nil.mp hs).1
    have hv : v = [] := (List.append_eq_nil.mp hs).2
    simp [Re.nullable, iha hu, ihb hv]
  | starNil a => rfl
  | starCons a u v _ _ _ _ => rfl

theorem nullable_Matches_nil (r : Re) (h : r.nullable = true) : Re.Matches r [] := by
  induction r with
  | empty => simp [Re.nullable] at h
  | eps => exact .eps
  | cls p => simp [Re.nullable] at h
  | alt a b iha ihb =>
    simp only [Re.nullable, Bool.or_eq_true] at h
    rcases h with h | h
    · exact .altL a b [] (iha h)
    · exact .altR a b [] (ihb h)
  | cat a b iha ihb =>
    simp only [Re.nullable, Bool.and_eq_true] at h
    exact .cat a b [] [] (iha h.1) (ihb h.2)
  | star a _ => exact .starNil a

theorem Matches_deriv {r : Re} {t : Str} (h : Re.Matches r t) (c : Char) (s : Str)
    (ht : t = c :: s) : Re.Matches (r.deriv c) s := by
  induction h generalizing s with
  | eps => simp at ht
  | cls p x hx =>
    simp only [List.cons.injEq] at ht
    obtain ⟨rfl, rfl⟩ := ht
    simp only [Re.deriv, hx, if_true]
    exact .eps
  | altL a b s1 _ ih => exact .altL _ _ _ (ih s ht)
  | altR a b s1 _ ih => exact .altR _ _ _ (ih s ht)
  | cat a b u v hu hv iha ihb =>
    cases u with
    | nil =>
      have hn := Matches_nil_nullable hu rfl
      simp only [Re.deriv, hn, if_true]
      exact .altR _ _ _ (ihb s (by simpa using ht))
    | cons x u1 =>
      simp only [List.cons_append, List.cons.injEq] at ht
      obtain ⟨rfl, rfl⟩ := ht
      have h1 : Re.Matches (.cat (a.deriv x) b) (u1 ++ v) := .cat _ _ _ _ (iha u1 rfl) hv
      simp only [Re.deriv]
      split
      · exact .altL _ _ _ h1
      · exact h1
  | starNil a => simp at ht
  | starCons a u v hu hv iha ihb =>
    cases u with
    | nil => exact ihb s (by simpa using ht)
    | cons x u1 =>
      simp only [List.cons_append, List.cons.injEq] at ht
      obtain ⟨rfl, rfl⟩ := ht
      simp only [Re.deriv]
      exact .cat _ _ _ _ (iha u1 rfl) hv

theorem deriv_Matches (r : Re) (c : Char) (s : Str) (h : Re.Matches (r.deriv c) s) :
    Re.Matches r (c :: s) := by
  induction r generalizing s with
  | empty => simp only [Re.deriv] at h; cases h
  | eps => simp only [Re.deriv] at h; cases h
  | cls p =>
    simp only [Re.deriv] at h
    split at h
    · rename_i hp
      rw [Matches_eps_iff] at h
      subst h
      exact .cls p c hp
    · cases h
  | alt a b iha ihb =>
    simp only [Re.deriv] at h
    rcases (Matches_alt_iff _ _ _).mp h with h | h
    · exact .altL _ _ _ (iha s h)
    · exact .altR _ _ _ (ihb s h)
  | cat a b iha ihb =>
    have key : ∀ s, Re.Matches (.cat (a.deriv c) b) s → Re.Matches (.cat a b) (c :: s) := by
      intro s h
      obtain ⟨u, v, rfl, hu, hv⟩ := (Matches_cat_iff _ _ _).mp h
      exact .cat a b (c :: u) v (iha u hu) hv
    simp only [Re.deriv] at h
    split at h
    · rename_i hn
      rcases (Matches_alt_iff _ _ _).mp h with h | h
      · exact key s h
      · exact .cat a b [] (c :: s) (nullable_Matches_nil a hn) (ihb s h)
    · exact key s h
  | star a iha =>
    simp only [Re.deriv] at h
    obtain ⟨u, v, rfl, hu, hv⟩ := (Matches_cat_iff _ _ _).mp h
    exact .starCons a (c :: u) v (iha u hu) hv

theorem MatchString_iff (r : Re) (s : Str) : r.MatchString s = true ↔ Re.Matches r s := by
  induction s generalizing r with
  | nil =>
    simp only [Re.MatchString, List.foldl_nil]
    exact ⟨nullable_Matches_nil r, fun h => Matches_nil_nullable h rfl⟩
  | cons c cs ih =>
    have h1 : r.MatchString (c :: cs) = (r.deriv c).MatchString cs := by
      simp [Re.MatchString]
    rw [h1, ih]
    exact ⟨deriv_Matches r c cs, fun h => Matches_deriv h c cs rfl⟩

theorem Matches_star_cls_all {r : Re} {s : Str} (h : Re.Matches r s) (p : Char → Bool)
    (hr : r = .star (.cls p)) : ∀ x ∈ s, p x = true := by
  induction h with
  | eps => cases hr
  | cls q c hc => cases hr
  | altL a b s _ _ => cases hr
  | altR a b s _ _ => cases hr
  | cat a b u v _ _ _ _ => cases hr
  | starNil a => simp
  | starCons a u v hu _ _ ihb =>
    injection hr with ha
    subst ha
    obtain ⟨c, rfl, hc⟩ := (Matches_cls_iff p u).mp hu
    intro x hx
    simp only [List.singleton_append, List.mem_cons] at hx
    rcases hx with rfl | hx
    · exact hc
    · exact ihb rfl x hx

theorem Matches_star_cls_iff (p : Char → Bool) (s : Str) :
    Re.Matches (.star (.cls p)) s ↔ ∀ x ∈ s, p x = true := by
  constructor
  · intro h
    exact Matches_star_cls_all h p rfl
  · intro h
    induction s with
    | nil => exact .starNil _
    | cons x xs ih =>
      exact .starCons _ [x] xs (.cls p x (h x (by simp)))
        (ih (fun y hy => h y (by simp [hy])))

theorem Matches_lit_iff (w s : Str) : Re.Matches (Re.lit w) s ↔ s = w := by
  induction w generalizing s with
  | nil => simp [Re.lit, Matches_eps_iff]
  | cons c cs ih =>
    simp only [Re.lit, Matches_cat_iff, Matches_cls_iff, ih]
    constructor
    · rintro ⟨u, v, rfl, ⟨x, rfl, hx⟩, rfl⟩
      have : x = c := by simpa using hx
      simp [this]
    · rintro rfl
      exact ⟨[c], cs, rfl, ⟨c, rfl, by simp⟩, rfl⟩

/-! ## The two patterns in words -/

theorem importRe_iff (L : Str) :
    importRe.MatchString L = true ↔
      ∃ a c m b, L = a ++ ("import".toList ++ c :: (m ++ ';' :: b)) ∧
        (∀ x ∈ a, isSpace x = true) ∧ isSpace c = true ∧ (∀ x ∈ m, isDot x = true) ∧
        (∀ x ∈ b, isSpace x = true) := by
  rw [MatchString_iff]
  unfold importRe
  simp only [Matches_cat_iff, Matches_star_cls_iff, Matches_lit_iff, Matches_cls_iff]
  constructor
  · rintro ⟨a, r1, rfl, ha, k, r2, rfl, rfl, u3, r3, rfl, ⟨c, rfl, hc⟩, m, r4, rfl, hm, u5, b,
      rfl, ⟨x, rfl, hx⟩, hb⟩
    have hx2 : x = ';' := by simpa using hx
    subst hx2
    exact ⟨a, c, m, b, by simp, ha, hc, hm, hb⟩
  · rintro ⟨a, c, m, b, rfl, ha, hc, hm, hb⟩
    exact ⟨a, _, rfl, ha, _, _, rfl, rfl, [c], _, rfl, ⟨c, rfl, hc⟩, m, _, rfl, hm, [';'], b,
      rfl, ⟨';', rfl, by simp⟩, hb⟩

theorem exportRe_iff (L : Str) :
    exportRe.MatchString L = true ↔
      ∃ a c m, L = a ++ ("export".toList ++ c :: m) ∧
        (∀ x ∈ a, isSpace x = true) ∧ isSpace c = true ∧ (∀ x ∈ m, isDot x = true) := by
  rw [MatchString_iff]
  unfold exportRe
  simp only [Matches_cat_iff, Matches_star_cls_iff, Matches_lit_iff, Matches_cls_iff]
  constructor
  · rintro ⟨a, r1, rfl, ha, k, r2, rfl, rfl, u3, m, rfl, ⟨c, rfl, hc⟩, hm⟩
    exact ⟨a, c, m, by simp, ha, hc, hm⟩
  · rintro ⟨a, c, m, rfl, ha, hc, hm⟩
    exact ⟨a, _, rfl, ha, _, _, rfl, rfl, [c], m, rfl, ⟨c, rfl, hc⟩, hm⟩

theorem dropWhile_append_all (p : Char → Bool) (a t : Str) (ha : ∀ x ∈ a, p x = true) :
    (a ++ t).dropWhile p = t.dropWhile p := by
  induction a with
  | nil => rfl
  | cons x xs ih =>
    have hx : p x = true := ha x (by simp)
    simp only [List.cons_append, List.dropWhile_cons, hx, if_true]
    exact ih (fun y hy => ha y (by simp [hy]))

theorem trimLeft_append (a t : Str) (k : Char) (ha : ∀ x ∈ a, isSpace x = true)
    (hk : isSpace k = false) : trimLeft (a ++ k :: t) = k :: t := by
  unfold trimLeft
  rw [dropWhile_append_all isSpace a _ ha]
  simp [List.dropWhile_cons, hk]

theorem trimLeft_split (L : Str) : ∃ a, L = a ++ trimLeft L ∧ ∀ x ∈ a, isSpace x = true :=
  ⟨L.takeWhile isSpace, (List.takeWhile_append_dropWhile isSpace L).symm,
    fun _ hx => List.mem_takeWhile_imp hx⟩

theorem trimRight_append (t b : Str) (k : Char) (hb : ∀ x ∈ b, isSpace x = true)
    (hk : isSpace k = false) : trimRight (t ++ k :: b) = t ++ [k] := by
  unfold trimRight
  have e : (t ++ k :: b).reverse = b.reverse ++ k :: t.reverse := by simp
  rw [e, dropWhile_append_all isSpace _ _ (fun x hx => hb x (by simpa using hx))]
  simp [List.dropWhile_cons, hk]

theorem trimRight_split (L : Str) : ∃ b, L = trimRight L ++ b ∧ ∀ x ∈ b, isSpace x = true := by
  refine ⟨(L.reverse.takeWhile isSpace).reverse, ?_, ?_⟩
  · unfold trimRight
    rw [← List.reverse_append, List.takeWhile_append_dropWhile, List.reverse_reverse]
  · intro x hx
    exact List.mem_takeWhile_imp (by simpa using hx)

theorem beginsWithKeyword_iff (kw s : Str) :
    beginsWithKeyword kw s = true ↔ ∃ c rest, s = kw ++ c :: rest ∧ isSpace c = true := by
  unfold beginsWithKeyword
  constructor
  · intro h
    simp only [Bool.and_eq_true] at h
    obtain ⟨h1, h2⟩ := h
    obtain ⟨t, rfl⟩ := List.isPrefixOf_iff_prefix.mp h1
    rw [List.drop_left] at h2
    cases t with
    | nil => simp at h2
    | cons c rest => exact ⟨c, rest, rfl, by simpa using h2⟩
  · rintro ⟨c, rest, rfl, hc⟩
    simp only [Bool.and_eq_true, HasPrefix_append, true_and, List.drop_left]
    exact hc

theorem HasSuffix_semicolon_iff (s : Str) :
    HasSuffix s ";".toList = true ↔ ∃ t, s = t ++ [';'] := by
  unfold HasSuffix
  rw [List.isSuffixOf_iff_suffix]
  constructor
  · rintro ⟨t, rfl⟩
    exact ⟨t, rfl⟩
  · rintro ⟨t, rfl⟩
    exact ⟨t, rfl⟩

theorem import_trim_iff (L : Str) (hnl : '\n' ∉ L) :
    importRe.MatchString L = true ↔
      (beginsWithKeyword "import".toList (trimLeft L) = true ∧
        HasSuffix (trimRight L) ";".toList = true) := by
  rw [importRe_iff, beginsWithKeyword_iff, HasSuffix_semicolon_iff]
  constructor
  · rintro ⟨a, c, m, b, rfl, ha, hc, hm, hb⟩
    constructor
    · refine ⟨c, m ++ ';' :: b, ?_, hc⟩
      exact trimLeft_append a _ 'i' ha (by decide)
    · refine ⟨a ++ ("import".toList ++ c :: m), ?_⟩
      have e : a ++ ("import".toList ++ c :: (m ++ ';' :: b)) =
          (a ++ ("import".toList ++ c :: m)) ++ ';' :: b := by simp
      rw [e]
      exact trimRight_append _ b ';' hb (by decide)
  · rintro ⟨⟨c, rest, hl, hc⟩, ⟨t, hr⟩⟩
    obtain ⟨a, hLa, ha⟩ := trimLeft_split L
    obtain ⟨b, hLb, hb⟩ := trimRight_split L
    rw [hl] at hLa
    rw [hr] at hLb
    have hs1 : ('t' :: c :: rest) <:+ L := ⟨a ++ "impor".toList, by rw [hLa]; simp⟩
    have hs2 : (';' :: b) <:+ L := ⟨t, by rw [hLb]; simp⟩
    have hrest : (';' :: b) <:+ rest := by
      rcases List.suffix_or_suffix_of_suffix hs1 hs2 with h | h
      · rcases List.suffix_cons_iff.mp h with h | h
        · injection h with h1 _
          exact absurd h1 (by decide)
        · have : isSpace 't' = true := hb 't' (h.subset (by simp))
          exact absurd this (by decide)
      · rcases List.suffix_cons_iff.mp h with h | h
        · injection h with h1 _
          exact absurd h1 (by decide)
        · rcases List.suffix_cons_iff.mp h with h | h
          · injection h with h1 _
            rw [← h1] at hc
            exact absurd hc (by decide)
          · exact h
    obtain ⟨m, hm⟩ := hrest
    refine ⟨a, c, m, b, by rw [hm]; exact hLa, ha, hc, ?_, hb⟩
    intro x hx
    have hxL : x ∈ L := by
      rw [hLa, ← hm]
      simp [hx]
    have : x ≠ '\n' := fun e => hnl (e ▸ hxL)
    simp [isDot, this]

theorem export_trim_iff (L : Str) (hnl : '\n' ∉ L) :
    exportRe.MatchString L = true ↔ beginsWithKeyword "export".toList (trimLeft L) = true := by
  rw [exportRe_iff, beginsWithKeyword_iff]
  constructor
  · rintro ⟨a, c, m, rfl, ha, hc, hm⟩
    exact ⟨c, m, trimLeft_append a _ 'e' ha (by decide), hc⟩
  · rintro ⟨c, rest, hl, hc⟩
    obtain ⟨a, hLa, ha⟩ := trimLeft_split L
    rw [hl] at hLa
    refine ⟨a, c, rest, hLa, ha, hc, ?_⟩
    intro x hx
    have hxL : x ∈ L := by
      rw [hLa]
      simp [hx]
    have : x ≠ '\n' := fun e => hnl (e ▸ hxL)
    simp [isDot, this]

/-- C1 (amended). A line without a line terminator is elided exactly when,
after trimming leading whitespace, it begins with `import` followed by a
whitespace character and, after trimming trailing whitespace, it ends with
`;`, or, after trimming leading whitespace, it begins with `export` followed
by a whitespace character; whitespace is tab, line feed, form feed, carriage
return and space. -/
theorem line_filter_keyword (L : Str) (hnl : '\n' ∉ L) :
    elided L = true ↔ elidedByKeyword L = true := by
  unfold elided elidedByKeyword
  rw [Bool.or_eq_true, Bool.and_eq_true, ← import_trim_iff L hnl, ← export_trim_iff L hnl]
  by_cases h1 : importRe.MatchString L = true
  · simp [h1]
  · by_cases h2 : exportRe.MatchString L = true
    · simp [h1, h2]
    · simp [h1, h2]

/-- C1, as stated, fails: the lines `import;` and `export` begin with the
keyword as a whole word (and the first ends with `;`), yet the code passes
both, because each pattern wants a whitespace character after the keyword. -/
theorem line_filter_word_counterexample :
    ('\n' ∉ "import;".toList ∧
      ¬ (elided "import;".toList = true ↔ elidedByWord "import;".toList = true)) ∧
    ('\n' ∉ "export".toList ∧
      ¬ (elided "export".toList = true ↔ elidedByWord "export".toList = true)) := by
  decide

/-- Witness for `line_filter_keyword`: the three lines of the specification. -/
theorem line_filter_keyword_witness :
    ('\n' ∉ "  import foo;  ".toList ∧
      (elided "  import foo;  ".toList = true ↔ elidedByKeyword "  import foo;  ".toList = true)) ∧
    elided "  import foo;  ".toList = true ∧ elided "exported".toList = false ∧
    elided "export const x = 1".toList = true :=
  ⟨⟨by decide, line_filter_keyword "  import foo;  ".toList (by decide)⟩, by decide, by decide,
    by decide⟩

/-! ## The Extension Matcher -/

theorem toLower_dot (c : Char) : Char.toLower c = '.' ↔ c = '.' := by
  constructor
  · intro h
    unfold Char.toLower at h
    simp only at h
    split at h
    · rename_i hb
      exfalso
      generalize c.toNat = n at h hb
      obtain ⟨h1, h2⟩ := hb
      interval_cases n <;> revert h <;> decide
    · exact h
  · rintro rfl
    decide

theorem matchExt_iff (lower : Char → Char) (name : Str) (exts : List Str) :
    matchExt lower name exts = true ↔
      ∃ e ∈ exts, HasSuffix (ToLower lower name)
        (".".toList ++ ToLower lower (TrimPrefix e ".".toList)) = true := by
  induction exts with
  | nil => simp [matchExt]
  | cons e rest ih =>
    have e1 : (".".toList : Str) = ['.'] := rfl
    simp only [e1] at ih ⊢
    by_cases h : HasSuffix (ToLower lower name) ('.' :: ToLower lower (TrimPrefix e ['.'])) = true
    · simp [matchExt, h]
    · simp [matchExt, h, ih]

theorem ToLower_TrimPrefix_dot (lower : Char → Char) (hdot : ∀ c, lower c = '.' ↔ c = '.')
    (e : Str) :
    ToLower lower (TrimPrefix e ".".toList) = TrimPrefix (ToLower lower e) ".".toList := by
  cases e with
  | nil => simp [TrimPrefix, ToLower]
  | cons c cs =>
    by_cases hc : c = '.'
    · subst hc
      have hl : lower '.' = '.' := (hdot '.').mpr rfl
      simp [TrimPrefix, HasPrefix, ToLower, hl]
    · have hl : ¬ lower c = '.' := fun h => hc ((hdot c).mp h)
      have hc2 : ¬ '.' = c := fun h => hc h.symm
      have hl2 : ¬ '.' = lower c := fun h => hl h.symm
      simp [TrimPrefix, HasPrefix, ToLower, hc2, hl2]

theorem matchExt_congr (lower : Char → Char) (hdot : ∀ c, lower c = '.' ↔ c = '.')
    (name name2 : Str) (exts exts2 : List Str)
    (hn : ToLower lower name2 = ToLower lower name)
    (he : List.Forall₂ (fun e e2 => ToLower lower e2 = ToLower lower e) exts exts2) :
    matchExt lower name2 exts2 = matchExt lower name exts := by
  induction he with
  | nil => simp [matchExt]
  | cons h _ ih =>
    simp only [matchExt]
    rw [hn, ih, ToLower_TrimPrefix_dot lower hdot, ToLower_TrimPrefix_dot lower hdot, h]

theorem matchExt_dot (lower : Char → Char) (name : Str) (pre post : List Str) (e : Str)
    (he : HasPrefix e ".".toList = false) :
    matchExt lower name (pre ++ (".".toList ++ e) :: post) =
      matchExt lower name (pre ++ e :: post) := by
  induction pre with
  | nil =>
    have h1 : TrimPrefix (".".toList ++ e) ".".toList = e := TrimPrefix_append _ _
    have he2 : HasPrefix e ['.'] = false := he
    have h2 : TrimPrefix e ".".toList = e := by simp [TrimPrefix, he2]
    simp only [List.nil_append, matchExt, h1, h2]
  | cons x xs ih => simp only [List.cons_append, matchExt, List.append_eq, ih]

/-- C6. The Extension Matcher gives the same answer (i) for a file name and
configured extensions that differ from the given ones only in the case of
letters, and (ii) when a configured extension without a leading `.` gets one;
and it accepts exactly when the lower-cased file name ends with `.` followed
by some lower-cased configured extension with one leading `.` removed.  The
case table `lower` is any map of characters that sends `.`, and nothing
else, to `.`. -/
theorem extension_matcher (lower : Char → Char) (hdot : ∀ c, lower c = '.' ↔ c = '.')
    (name : Str) (exts : List Str) :
    (∀ name2 exts2, ToLower lower name2 = ToLower lower name →
      List.Forall₂ (fun e e2 => ToLower lower e2 = ToLower lower e) exts exts2 →
      matchExt lower name2 exts2 = matchExt lower name exts) ∧
    (∀ pre post e, exts = pre ++ e :: post → HasPrefix e ".".toList = false →
      matchExt lower name (pre ++ (".".toList ++ e) :: post) = matchExt lower name exts) ∧
    (matchExt lower name exts = true ↔
      ∃ e ∈ exts, HasSuffix (ToLower lower name)
        (".".toList ++ TrimPrefix (ToLower lower e) ".".toList) = true) := by
  refine ⟨fun name2 exts2 hn he => matchExt_congr lower hdot name name2 exts exts2 hn he, ?_, ?_⟩
  · rintro pre post e rfl he
    exact matchExt_dot lower name pre post e he
  · rw [matchExt_iff]
    simp only [ToLower_TrimPrefix_dot lower hdot]

/-- Witness for `extension_matcher`, with the ASCII case table: `a.MD`
against `md` and `a.md` against `.md` are both accepted. -/
theorem extension_matcher_witness :
    (∀ c, Char.toLower c = '.' ↔ c = '.') ∧
    (matchExt Char.toLower "a.MD".toList ["md".toList] = true ↔
      ∃ e ∈ ["md".toList], HasSuffix (ToLower Char.toLower "a.MD".toList)
        (".".toList ++ TrimPrefix (ToLower Char.toLower e) ".".toList) = true) ∧
    matchExt Char.toLower "a.MD".toList ["md".toList] = true ∧
    matchExt Char.toLower "a.md".toList [".md".toList] = true :=
  ⟨toLower_dot, (extension_matcher Char.toLower toLower_dot "a.MD".toList ["md".toList]).2.2,
    by decide, by decide⟩

/-! ## The Aggregator -/

theorem byteLen_replicate_a (n : Nat) : byteLen (List.replicate n 'a') = n := by
  induction n with
  | zero => rfl
  | succ k ih =>
    have h1 : Char.utf8Size 'a' = 1 := by decide
    have h2 : byteLen (List.replicate (k + 1) 'a') =
        Char.utf8Size 'a' + byteLen (List.replicate k 'a') := by
      simp [byteLen, List.replicate_succ]
    rw [h2, ih, h1]
    omega

theorem scannedLines_of_short (raw : List Str)
    (h : ∀ r ∈ raw, byteLen r < maxScanTokenSize) : scannedLines raw = raw := by
  induction raw with
  | nil => rfl
  | cons r rest ih =>
    have hr : ¬ maxScanTokenSize ≤ byteLen r := Nat.not_le.mpr (h r (by simp))
    simp only [scannedLines, hr, if_false]
    rw [ih (fun x hx => h x (by simp [hx]))]

theorem elided_eq_false_iff (line : Str) :
    elided line = false ↔
      importRe.MatchString line = false ∧ exportRe.MatchString line = false := by
  unfold elided
  cases importRe.MatchString line <;> cases exportRe.MatchString line <;> simp

theorem scanLoop_eq (raw : List Str) (out : Str) :
    scanLoop raw out =
      out ++ (((contentLines (scannedLines raw)).filter (fun l => !elided l)).map
        (fun l => l ++ "\n".toList)).flatten := by
  induction raw generalizing out with
  | nil => simp [scanLoop, scannedLines, contentLines]
  | cons r rest ih =>
    simp only [scanLoop, scannedLines]
    by_cases hl : maxScanTokenSize ≤ byteLen r
    · simp [hl, contentLines]
    · simp only [hl, if_false]
      by_cases h1 : importRe.MatchString (dropCR r) = true
      · have he : elided (dropCR r) = true := by simp [elided, h1]
        simp only [h1, if_true, ih]
        simp [contentLines, he]
      · by_cases h2 : exportRe.MatchString (dropCR r) = true
        · have he : elided (dropCR r) = true := by simp [elided, h2]
          simp only [h1, h2, if_true, if_false, ih]
          simp [contentLines, he]
        · have he : elided (dropCR r) = false := by simp [elided, h1, h2]
          simp only [h1, h2, if_false, ih]
          simp [contentLines, he]

theorem emitFile_eq (rel : Str) (raw : List Str) (out : Str) :
    emitFile rel raw out = out ++ fileBlock (rel, raw) := by
  unfold emitFile fileBlock fullBlock
  rw [scanLoop_eq]
  simp [header, separator]

theorem aggregate_eq (files : List (Str × List Str)) (out : Str) :
    aggregate files out = out ++ (files.map fileBlock).flatten := by
  induction files generalizing out with
  | nil => simp [aggregate]
  | cons f rest ih =>
    simp only [aggregate, ih, emitFile_eq]
    simp

theorem fileBlock_of_short (f : Str × List Str)
    (h : ∀ r ∈ f.2, byteLen r < maxScanTokenSize) : fileBlock f = fullBlock f := by
  unfold fileBlock
  rw [scannedLines_of_short f.2 h]

/-- C7 (amended). For an ordered list of matched files, each a relative path
and raw lines (the pieces between line feeds) of which every one is shorter
than 64 KiB (65536 bytes), the bytes appended to the sink are the
concatenation, in that order, of one block per file: the header with the
relative path twice, every line of the file that the Line Filter passes (the
raw line without the carriage return of its terminator), otherwise unmodified
and in order, each followed by a newline, and the fixed separator.  The
appended bytes do not depend on what the sink already holds, and the output
for a concatenation of two lists is the concatenation of their outputs. -/
theorem aggregator_output (files : List (Str × List Str)) (out : Str)
    (hshort : ∀ f ∈ files, ∀ r ∈ f.2, byteLen r < maxScanTokenSize) :
    aggregate files out = out ++ (files.map fullBlock).flatten ∧
    (∀ f ∈ files, fullBlock f =
      "<!-- FILE: ".toList ++ f.1 ++ " -->\n\n### ".toList ++ f.1 ++ "\n\n".toList
        ++ (((f.2.map dropCR).filter (fun l => elided l = false)).map
          (fun l => l ++ "\n".toList)).flatten
        ++ "\n\n---\n\n\n".toList) ∧
    aggregate files out = out ++ aggregate files [] ∧
    (∀ files2, aggregate (files ++ files2) [] = aggregate files [] ++ aggregate files2 []) := by
  refine ⟨?_, ?_, ?_, ?_⟩
  · rw [aggregate_eq]
    congr 2
    exact List.map_congr_left (fun f hf => fileBlock_of_short f (hshort f hf))
  · intro f _
    unfold fullBlock contentLines
    simp
  · rw [aggregate_eq files out, aggregate_eq files []]
    simp
  · intro files2
    simp [aggregate_eq]

theorem long_line_dropped (long : Str) (h : maxScanTokenSize ≤ byteLen long) :
    aggregate [("big.md".toList, [long, "tail".toList])] [] =
      "<!-- FILE: big.md -->\n\n### big.md\n\n\n\n---\n\n\n".toList ∧
    aggregate [("big.md".toList, [long, "tail".toList])] [] ≠
      [] ++ ([("big.md".toList, [long, "tail".toList])].map fullBlock).flatten := by
  have hagg : aggregate [("big.md".toList, [long, "tail".toList])] [] =
      "<!-- FILE: big.md -->\n\n### big.md\n\n\n\n---\n\n\n".toList := by
    simp only [aggregate, emitFile, scanLoop, h, if_true]
    decide
  refine ⟨hagg, ?_⟩
  intro hne
  have hlen := congrArg List.length hne
  rw [hagg] at hlen
  simp only [List.map_cons, List.map_nil, fullBlock, contentLines,
    List.filter_cons, List.filter_nil] at hlen
  have ht : dropCR "tail".toList = "tail".toList := by decide
  have he : elided "tail".toList = false := by decide
  rw [ht, he] at hlen
  by_cases hb : elided (dropCR long) = true
  · simp [hb] at hlen
  · simp [hb] at hlen

/-- C7, as stated, fails: a first line of 65536 bytes ends the scan loop, so
neither it nor the line `tail` after it, which the Line Filter passes, is
written; the block is the header followed at once by the separator. -/
theorem aggregator_long_line_counterexample :
    aggregate longLineFiles [] =
      "<!-- FILE: big.md -->\n\n### big.md\n\n\n\n---\n\n\n".toList ∧
    elided "tail".toList = false ∧
    aggregate longLineFiles [] ≠ [] ++ (longLineFiles.map fullBlock).flatten :=
  ⟨(long_line_dropped _ (Nat.le_of_eq (byteLen_replicate_a maxScanTokenSize).symm)).1,
    by decide,
    (long_line_dropped _ (Nat.le_of_eq (byteLen_replicate_a maxScanTokenSize).symm)).2⟩

/-- Witness for `aggregator_output`: two files, one line elided in each. -/
theorem aggregator_output_witness :
    (∀ f ∈ exampleFiles, ∀ r ∈ f.2, byteLen r < maxScanTokenSize) ∧
    aggregate exampleFiles [] =
      ("<!-- FILE: a.md -->\n\n### a.md\n\n# A\ntext\n\n\n---\n\n\n".toList ++
        "<!-- FILE: sub/b.mdx -->\n\n### sub/b.mdx\n\nbody\n\n\n---\n\n\n".toList) :=
  ⟨by decide, ((aggregator_output exampleFiles [] (by decide)).1).trans (by decide)⟩

/-! ## Sorting by name -/

theorem mem_insertByName {α : Type} (p x : Str × α) (l : List (Str × α)) :
    x ∈ insertByName p l ↔ x = p ∨ x ∈ l := by
  induction l with
  | nil => simp [insertByName]
  | cons q rest ih =>
    simp only [insertByName]
    split
    · simp only [List.mem_cons, ih]
      tauto
    · simp only [List.mem_cons]

theorem mem_sortByName {α : Type} (x : Str × α) (l : List (Str × α)) :
    x ∈ sortByName l ↔ x ∈ l := by
  induction l with
  | nil => simp [sortByName]
  | cons p rest ih => simp only [sortByName, mem_insertByName, ih, List.mem_cons]

theorem insertByName_map {α β : Type} (g : α → β) (p : Str × α) (l : List (Str × α)) :
    insertByName (p.1, g p.2) (l.map (fun q => (q.1, g q.2))) =
      (insertByName p l).map (fun q => (q.1, g q.2)) := by
  induction l with
  | nil => simp [insertByName]
  | cons q rest ih =>
    simp only [List.map_cons, insertByName]
    split
    · simp only [List.map_cons, ih]
    · simp only [List.map_cons]

theorem sortByName_map {α β : Type} (g : α → β) (l : List (Str × α)) :
    sortByName (l.map (fun q => (q.1, g q.2))) =
      (sortByName l).map (fun q => (q.1, g q.2)) := by
  induction l with
  | nil => simp [sortByName]
  | cons p rest ih =>
    simp only [List.map_cons, sortByName, ih]
    exact insertByName_map g p (sortByName rest)

/-! ## The walk -/

theorem Additive_apply {w : Str → Str × WalkEnd} (h : Additive w) (out : Str) :
    w out = (out ++ (w []).1, (w []).2) ∧ (w []).2 ≠ WalkEnd.unfinished := by
  obtain ⟨o, e, he, hw⟩ := h
  have h0 := hw []
  simp only [List.nil_append] at h0
  rw [hw out, h0]
  exact ⟨rfl, he⟩

theorem runInOrder_additive (l : List (Str × (Str → Str × WalkEnd)))
    (h : ∀ p ∈ l, Additive p.2) : Additive (runInOrder l) := by
  induction l with
  | nil => exact ⟨[], .done, by simp, fun out => by simp [runInOrder]⟩
  | cons p rest ih =>
    obtain ⟨o1, e1, he1, hw1⟩ := h p (by simp)
    obtain ⟨o2, e2, he2, hw2⟩ := ih (fun q hq => h q (by simp [hq]))
    cases e1 with
    | done =>
      refine ⟨o1 ++ o2, e2, he2, fun out => ?_⟩
      simp only [runInOrder, hw1, hw2, List.append_assoc]
    | failed e =>
      refine ⟨o1, .failed e, he1, fun out => ?_⟩
      simp only [runInOrder, hw1]
    | unfinished => exact absurd rfl he1

theorem visitFile_additive (fuel : Nat) (lower : Char → Char) (exts : List Str)
    (rel name : Str) (content : Content)
    (h : filesEnd lower exts (.file name content) = true) :
    Additive (visitFile fuel lower exts rel name content) := by
  simp only [filesEnd, Bool.or_eq_true, Bool.not_eq_true'] at h
  by_cases hm : matchExt lower name exts = true
  · rcases h with h | h
    · rw [hm] at h
      exact Bool.noConfusion h
    · cases content with
      | unopenable =>
        exact ⟨header rel, .failed (.openFile rel), by simp,
          fun out => by simp [visitFile, hm]⟩
      | lines raw =>
        exact ⟨fileBlock (rel, raw), .done, by simp,
          fun out => by simp [visitFile, hm, emitFile_eq]⟩
      | stream raw => simp at h
      | sink => simp at h
  · exact ⟨[], .done, by simp, fun out => by simp [visitFile, hm]⟩

mutual
theorem walk_additive (fuel : Nat) (lower : Char → Char) (exts : List Str) :
    ∀ (rel : Str) (n : Node), filesEnd lower exts n = true →
      Additive (fun out => walk fuel lower exts rel n out)
  | rel, .broken _, _ => ⟨[], .failed (.lstat rel), by simp, fun out => by simp [walk]⟩
  | rel, .file name content, h => by
    simp only [walk]
    exact visitFile_additive fuel lower exts rel name content h
  | rel, .dir _ listable entries, h => by
    simp only [filesEnd] at h
    cases listable with
    | false => exact ⟨[], .failed (.readDir rel), by simp, fun out => by simp [walk]⟩
    | true =>
      simp only [walk, if_true]
      apply runInOrder_additive
      intro p hp
      rw [mem_sortByName] at hp
      exact walkAll_additive fuel lower exts rel entries h p hp
theorem walkAll_additive (fuel : Nat) (lower : Char → Char) (exts : List Str) :
    ∀ (parent : Str) (es : List Node), filesEndAll lower exts es = true →
      ∀ p ∈ walkAll fuel lower exts parent es, Additive p.2
  | parent, [], _ => by simp [walkAll]
  | parent, n :: rest, h => by
    simp only [filesEndAll, Bool.and_eq_true] at h
    intro p hp
    simp only [walkAll, List.mem_cons] at hp
    rcases hp with rfl | hp
    · exact walk_additive fuel lower exts (relChild parent n.name) n h.1
    · exact walkAll_additive fuel lower exts parent rest h.2 p hp
end

theorem visitFile_fuel (fuel : Nat) (lower : Char → Char) (exts : List Str)
    (rel name : Str) (content : Content) (out : Str)
    (h : filesEnd lower exts (.file name content) = true) :
    visitFile fuel lower exts rel name content out =
      visitFile 0 lower exts rel name content out := by
  simp only [filesEnd, Bool.or_eq_true, Bool.not_eq_true'] at h
  by_cases hm : matchExt lower name exts = true
  · rcases h with h | h
    · rw [hm] at h
      exact Bool.noConfusion h
    · cases content with
      | unopenable => simp [visitFile]
      | lines raw => simp [visitFile]
      | stream raw => simp at h
      | sink => simp at h
  · simp [visitFile, hm]

mutual
theorem walk_fuel (fuel : Nat) (lower : Char → Char) (exts : List Str) :
    ∀ (rel : Str) (n : Node) (out : Str), filesEnd lower exts n = true →
      walk fuel lower exts rel n out = walk 0 lower exts rel n out
  | rel, .broken _, out, _ => by simp [walk]
  | rel, .file name content, out, h => by
    simp only [walk]
    exact visitFile_fuel fuel lower exts rel name content out h
  | rel, .dir _ listable entries, out, h => by
    simp only [filesEnd] at h
    simp only [walk]
    rw [walkAll_fuel fuel lower exts rel entries h]
theorem walkAll_fuel (fuel : Nat) (lower : Char → Char) (exts : List Str) :
    ∀ (parent : Str) (es : List Node), filesEndAll lower exts es = true →
      walkAll fuel lower exts parent es = walkAll 0 lower exts parent es
  | parent, [], _ => by simp [walkAll]
  | parent, n :: rest, h => by
    simp only [filesEndAll, Bool.and_eq_true] at h
    simp only [walkAll]
    rw [walkAll_fuel fuel lower exts parent rest h.2]
    congr 2
    funext out
    exact walk_fuel fuel lower exts (relChild parent n.name) n out h.1
end

theorem matched_append (lower : Char → Char) (exts : List Str)
    (a b : List (Str × Str × Content)) :
    matched lower exts (a ++ b) = matched lower exts a ++ matched lower exts b := by
  simp [matched]

theorem matched_flatten (lower : Char → Char) (exts : List Str)
    (l : List (List (Str × Str × Content))) :
    matched lower exts l.flatten = (l.map (matched lower exts)).flatten := by
  induction l with
  | nil => simp [matched]
  | cons a rest ih => simp [matched_append, ih]

theorem flatten_map_flatten {α β : Type} (f : α → List (List β)) (l : List α) :
    (l.map (fun p => (f p).flatten)).flatten = (l.map f).flatten.flatten := by
  induction l with
  | nil => simp
  | cons a rest ih => simp [ih]

theorem runInOrder_map_done {α : Type} (f : α → Str) (l : List (Str × α)) (out : Str) :
    runInOrder (l.map (fun p => (p.1, fun o => (o ++ f p.2, WalkEnd.done)))) out =
      (out ++ (l.map (fun p => f p.2)).flatten, .done) := by
  induction l generalizing out with
  | nil => simp [runInOrder]
  | cons p rest ih =>
    simp only [List.map_cons, runInOrder, ih]
    simp

mutual
theorem walk_complete (fuel : Nat) (lower : Char → Char) (exts : List Str) :
    ∀ (rel : Str) (n : Node) (out : Str),
      noErrors lower exts n = true → filesEnd lower exts n = true →
      walk fuel lower exts rel n out =
        (out ++ ((matched lower exts (nonDirEntries rel n)).map fileBlock).flatten, .done)
  | rel, .broken _, out, h, _ => by simp [noErrors] at h
  | rel, .file name content, out, h, h2 => by
    simp only [noErrors, Bool.or_eq_true, Bool.not_eq_true'] at h
    simp only [filesEnd, Bool.or_eq_true, Bool.not_eq_true'] at h2
    simp only [walk, visitFile, matched, nonDirEntries]
    by_cases hm : matchExt lower name exts = true
    · rcases h with h | h
      · rw [hm] at h
        exact Bool.noConfusion h
      · rcases h2 with h2 | h2
        · rw [hm] at h2
          exact Bool.noConfusion h2
        · cases content with
          | unopenable => simp at h
          | lines raw => simp [hm, emitFile_eq, Content.raw]
          | stream raw => simp at h2
          | sink => simp at h2
    · simp [hm]
  | rel, .dir _ listable entries, out, h, h2 => by
    simp only [noErrors, Bool.and_eq_true] at h
    simp only [filesEnd] at h2
    simp only [walk, h.1, if_true, nonDirEntries]
    rw [walkAll_complete fuel lower exts rel entries h.2 h2,
      sortByName_map (fun es o => (o ++ ((matched lower exts es).map fileBlock).flatten,
        WalkEnd.done)) (nonDirEntriesAll rel entries),
      runInOrder_map_done (fun es => ((matched lower exts es).map fileBlock).flatten)]
    rw [matched_flatten]
    simp [List.map_flatten, Function.comp_def]
    exact flatten_map_flatten _ _
theorem walkAll_complete (fuel : Nat) (lower : Char → Char) (exts : List Str) :
    ∀ (parent : Str) (es : List Node),
      noErrorsAll lower exts es = true → filesEndAll lower exts es = true →
      walkAll fuel lower exts parent es =
        (nonDirEntriesAll parent es).map
          (fun p => (p.1, fun o => (o ++ ((matched lower exts p.2).map fileBlock).flatten,
            WalkEnd.done)))
  | parent, [], _, _ => by simp [walkAll, nonDirEntriesAll]
  | parent, n :: rest, h, h2 => by
    simp only [noErrorsAll, Bool.and_eq_true] at h
    simp only [filesEndAll, Bool.and_eq_true] at h2
    simp only [walkAll, nonDirEntriesAll, List.map_cons]
    rw [walkAll_complete fuel lower exts parent rest h.2 h2.2]
    congr 2
    funext out
    exact walk_complete fuel lower exts (relChild parent n.name) n out h.1 h2.1
end

/-! ## Scan loops that do not end -/

theorem scanStream_unfinished (raw : Nat → Str) (h : ∀ k, byteLen (raw k) < maxScanTokenSize) :
    ∀ (fuel k : Nat) (out : Str), (scanStream raw fuel k out).2 = false := by
  intro fuel
  induction fuel with
  | zero => intro k out; rfl
  | succ f ih =>
    intro k out
    have hk : ¬ maxScanTokenSize ≤ byteLen (raw k) := Nat.not_le.mpr (h k)
    simp only [scanStream, hk, if_false]
    split
    · exact ih _ _
    · split
      · exact ih _ _
      · exact ih _ _

theorem rawLines_snoc_nl (W0 : Str) : rawLines (W0 ++ ['\n']) = Split W0 '\n' := by
  have h : Split (W0 ++ ['\n']) '\n' = Split W0 '\n' ++ [[]] := by
    have := Split_append_sep W0 [] '\n'
    simpa [Split] using this
  unfold rawLines
  rw [h]
  simp

theorem scanSink_unfinished :
    ∀ (fuel k : Nat) (W0 : Str), (∀ l ∈ Split W0 '\n', copied l = true) →
      k < (Split W0 '\n').length → (scanSink fuel k (W0 ++ ['\n'])).2 = false := by
  intro fuel
  induction fuel with
  | zero => intro k W0 _ _; rfl
  | succ f ih =>
    intro k W0 hall hk
    have hget : (Split W0 '\n').get? k = some ((Split W0 '\n').get ⟨k, hk⟩) :=
      List.get?_eq_get hk
    have hmem : (Split W0 '\n').get ⟨k, hk⟩ ∈ Split W0 '\n' := List.get_mem _ _ _
    generalize (Split W0 '\n').get ⟨k, hk⟩ = l at hget hmem
    have hc := hall l hmem
    simp only [copied, Bool.and_eq_true, decide_eq_true_eq, Bool.not_eq_true'] at hc
    obtain ⟨⟨⟨⟨hlen, hcr⟩, himp⟩, hexp⟩, hnl⟩ := hc
    have hlong : ¬ maxScanTokenSize ≤ byteLen l := Nat.not_le.mpr hlen
    simp only [scanSink, rawLines_snoc_nl, hget, hlong, if_false, hcr, himp, hexp,
      Bool.false_eq_true]
    have e : W0 ++ ['\n'] ++ l ++ "\n".toList = (W0 ++ '\n' :: l) ++ ['\n'] := by simp
    rw [e]
    have hsplit : Split (W0 ++ '\n' :: l) '\n' = Split W0 '\n' ++ [l] := by
      rw [Split_append_sep, Split_nosep hnl]
    apply ih
    · intro x hx
      rw [hsplit] at hx
      simp only [List.mem_append, List.mem_singleton] at hx
      rcases hx with hx | rfl
      · exact hall x hx
      · exact hall x hmem
    · rw [hsplit]
      simp
      omega

theorem walk_streamTree_unfinished (fuel : Nat) :
    (walk fuel Char.toLower mdExts ".".toList streamTree []).2 = .unfinished := by
  have h1 : walk fuel Char.toLower mdExts ".".toList streamTree [] =
      runInOrder
        [("feed.md".toList, fun out => walk fuel Char.toLower mdExts "feed.md".toList
            (.file "feed.md".toList (.stream (fun _ => "x".toList))) out),
          ("z.md".toList, fun out => walk fuel Char.toLower mdExts "z.md".toList
            (.file "z.md".toList (.lines ["last".toList])) out)] [] := rfl
  rw [h1]
  have hm : matchExt Char.toLower "feed.md".toList mdExts = true := by decide
  simp only [runInOrder, walk, visitFile, hm, if_true]
  have hu := scanStream_unfinished (fun _ => "x".toList)
    (fun _ => (by decide : byteLen "x".toList < maxScanTokenSize)) fuel 0
    ([] ++ header "feed.md".toList)
  rcases hs : scanStream (fun _ => "x".toList) fuel 0 ([] ++ header "feed.md".toList)
    with ⟨o, b⟩
  rw [hs] at hu
  simp only at hu
  subst hu
  rfl

theorem walk_sinkTree_unfinished (fuel : Nat) :
    (walk fuel Char.toLower mdExts ".".toList (sinkTree "output.md".toList) []).2 =
      .unfinished := by
  have h1 : walk fuel Char.toLower mdExts ".".toList (sinkTree "output.md".toList) [] =
      runInOrder
        [("notes.md".toList, fun out => walk fuel Char.toLower mdExts "notes.md".toList
            (.file "notes.md".toList (.lines ["note".toList])) out),
          ("output.md".toList, fun out => walk fuel Char.toLower mdExts "output.md".toList
            (.file "output.md".toList .sink) out),
          ("z.md".toList, fun out => walk fuel Char.toLower mdExts "z.md".toList
            (.file "z.md".toList (.lines ["last".toList])) out)] [] := rfl
  rw [h1]
  have hm1 : matchExt Char.toLower "notes.md".toList mdExts = true := by decide
  have hm2 : matchExt Char.toLower "output.md".toList mdExts = true := by decide
  have hW : emitFile "notes.md".toList ["note".toList] [] ++ header "output.md".toList =
      ("<!-- FILE: notes.md -->\n\n### notes.md\n\nnote\n\n\n---\n\n\n".toList ++
        "<!-- FILE: output.md -->\n\n### output.md\n".toList) ++ ['\n'] := by decide
  simp only [runInOrder, walk, visitFile, hm1, hm2, if_true, hW]
  have hu := scanSink_unfinished fuel 0
    ("<!-- FILE: notes.md -->\n\n### notes.md\n\nnote\n\n\n---\n\n\n".toList ++
      "<!-- FILE: output.md -->\n\n### output.md\n".toList) (by decide) (by decide)
  rcases hs : scanSink fuel 0
    (("<!-- FILE: notes.md -->\n\n### notes.md\n\nnote\n\n\n---\n\n\n".toList ++
      "<!-- FILE: output.md -->\n\n### output.md\n".toList) ++ ['\n']) with ⟨o, b⟩
  rw [hs] at hu
  simp only at hu
  subst hu
  rfl

/-- C9 (amended). For a tree in which no file-system error can stop the walk
(every entry can be examined, every directory listed, every file with an
accepted name opened) and in which every file with an accepted name has an
end and is not the output file of the run, the walk ends without error and
what it appends is one block for each non-directory entry whose name the
Extension Matcher accepts, at any depth, in walk order (the entries of a
directory by name), once each, and nothing else: no block for a directory,
none for a file whose name is not accepted.  The block of a file is its
header, the lines the scanner gets through that the Line Filter passes, and
the separator. -/
theorem walker_complete_exclusive (fuel : Nat) (lower : Char → Char) (exts : List Str)
    (rel : Str) (n : Node) (out : Str) (h : noErrors lower exts n = true)
    (hend : filesEnd lower exts n = true) :
    walk fuel lower exts rel n out =
      (out ++ ((((nonDirEntries rel n).filter (fun e => matchExt lower e.2.1 exts)).map
        (fun e => (e.1, e.2.2.raw))).map fileBlock).flatten, .done) :=
  walk_complete fuel lower exts rel n out h hend

/-- C9, as stated, fails, in three ways.  Under a root whose first entry is a
directory that cannot be listed, the walk stops with an error before it
reaches `b.md`.  Under a root that holds the output file itself, the scan loop
over `output.md` reads what it writes and does not end, so `z.md` is never
reached.  Under a root that holds a file without an end, the scan loop over
`feed.md` does not end either. -/
theorem walker_counterexample :
    (matchedFiles Char.toLower mdExts ".".toList unreadableTree =
        [("b.md".toList, ["hi".toList])] ∧
      walk 0 Char.toLower mdExts ".".toList unreadableTree [] =
        ([], .failed (.readDir "a".toList)) ∧
      ¬ ∃ fuel, walk fuel Char.toLower mdExts ".".toList unreadableTree [] =
        ([] ++ ((matchedFiles Char.toLower mdExts ".".toList unreadableTree).map
          fileBlock).flatten, .done)) ∧
    (noErrors Char.toLower mdExts (sinkTree "output.md".toList) = true ∧
      ¬ ∃ fuel, walk fuel Char.toLower mdExts ".".toList (sinkTree "output.md".toList) [] =
        ([] ++ ((matchedFiles Char.toLower mdExts ".".toList
          (sinkTree "output.md".toList)).map fileBlock).flatten, .done)) ∧
    (noErrors Char.toLower mdExts streamTree = true ∧
      ¬ ∃ fuel, walk fuel Char.toLower mdExts ".".toList streamTree [] =
        ([] ++ ((matchedFiles Char.toLower mdExts ".".toList streamTree).map
          fileBlock).flatten, .done)) := by
  refine ⟨⟨by decide, by decide, ?_⟩, ⟨by decide, ?_⟩, ⟨by decide, ?_⟩⟩
  · rintro ⟨fuel, h⟩
    rw [walk_fuel fuel Char.toLower mdExts ".".toList unreadableTree [] (by decide)] at h
    revert h
    decide
  · rintro ⟨fuel, h⟩
    have h2 := congrArg Prod.snd h
    rw [walk_sinkTree_unfinished fuel] at h2
    exact WalkEnd.noConfusion h2
  · rintro ⟨fuel, h⟩
    have h2 := congrArg Prod.snd h
    rw [walk_streamTree_unfinished fuel] at h2
    exact WalkEnd.noConfusion h2

/-- Witness for `walker_complete_exclusive`: of the `.md`, `.mdx`, `.txt` and
`.png` files of the example tree, exactly the Markdown ones are emitted, in
the order of their names, the one in the hidden directory first. -/
theorem walker_complete_exclusive_witness :
    noErrors Char.toLower mdExts exampleTree = true ∧
    filesEnd Char.toLower mdExts exampleTree = true ∧
    walk 0 Char.toLower mdExts ".".toList exampleTree [] =
      ([] ++ ((((nonDirEntries ".".toList exampleTree).filter
        (fun e => matchExt Char.toLower e.2.1 mdExts)).map
          (fun e => (e.1, e.2.2.raw))).map fileBlock).flatten, .done) ∧
    (((nonDirEntries ".".toList exampleTree).filter
        (fun e => matchExt Char.toLower e.2.1 mdExts)).map (fun e => e.1)) =
      [".hidden/e.MD".toList, "a.md".toList, "b.mdx".toList] ∧
    (walk 0 Char.toLower mdExts ".".toList exampleTree []).1 =
      ("<!-- FILE: .hidden/e.MD -->\n\n### .hidden/e.MD\n\ndeep\n\n\n---\n\n\n".toList ++
        "<!-- FILE: a.md -->\n\n### a.md\n\n# A\ntext\n\n\n---\n\n\n".toList ++
        "<!-- FILE: b.mdx -->\n\n### b.mdx\n\nbody\n\n\n---\n\n\n".toList) :=
  ⟨by decide, by decide,
    walker_complete_exclusive 0 Char.toLower mdExts ".".toList exampleTree [] (by decide)
      (by decide),
    by decide, by decide⟩

/-! ## The loops over the configured roots -/

theorem localLoop_spec (fuel : Nat) (lower : Char → Char) (env : LocalEnv) (exts : List Str)
    (output : Str) :
    ∀ (paths : List Str) (out : Str) (log : List Msg),
      (∀ p ∈ paths, ∀ n, localNode env output p = some n → filesEnd lower exts n = true) →
      (localLoop fuel lower env exts output paths (out, log)).1 =
        out ++ (paths.filterMap (localContribution fuel lower env exts output)).flatten ∧
      (localLoop fuel lower env exts output paths (out, log)).2.2 = true ∧
      ((localLoop fuel lower env exts output paths (out, log)).2.1.filter
          Msg.isPathNotFound).length =
        (log.filter Msg.isPathNotFound).length +
          (paths.filter (localMissing env output)).length
  | [], out, log, _ => by simp [localLoop]
  | p :: rest, out, log, hf => by
    have hrest : ∀ q ∈ rest, ∀ n, localNode env output q = some n → filesEnd lower exts n = true :=
      fun q hq => hf q (by simp [hq])
    simp only [localLoop]
    cases ha : env.abs p with
    | none =>
      have h := localLoop_spec fuel lower env exts output rest out (log ++ [.cannotResolve p]) hrest
      simp only [localContribution, localNode, localMissing, ha, List.filterMap_cons,
        List.filter_cons]
      refine ⟨h.1, h.2.1, ?_⟩
      rw [h.2.2]
      simp [Msg.isPathNotFound]
    | some a =>
      cases hs : env.stat output a with
      | none =>
        have h := localLoop_spec fuel lower env exts output rest out (log ++ [.pathNotFound a]) hrest
        simp only [localContribution, localNode, localMissing, ha, hs, List.filterMap_cons,
          List.filter_cons]
        refine ⟨h.1, h.2.1, ?_⟩
        rw [h.2.2]
        simp [Msg.isPathNotFound]
        omega
      | some node =>
        have hn : filesEnd lower exts node = true :=
          hf p (by simp) node (by simp [localNode, ha, hs])
        obtain ⟨hw, hne⟩ :=
          Additive_apply (walk_additive fuel lower exts ".".toList node hn) out
        simp only [hs]
        rw [hw]
        have hc : localContribution fuel lower env exts output p =
            some (walk fuel lower exts ".".toList node []).1 := by
          simp [localContribution, localNode, ha, hs]
        have hmiss : localMissing env output p = false := by simp [localMissing, ha, hs]
        rcases hw0 : walk fuel lower exts ".".toList node [] with ⟨o1, e⟩
        rw [hw0] at hne hc
        simp only at hne hc
        cases e with
        | done =>
          have h := localLoop_spec fuel lower env exts output rest (out ++ o1) log hrest
          simp only [List.filterMap_cons, List.filter_cons, hc, hmiss]
          refine ⟨?_, h.2.1, ?_⟩
          · rw [h.1]
            simp
          · rw [h.2.2]
            simp
        | failed err =>
          have h := localLoop_spec fuel lower env exts output rest (out ++ o1)
            (log ++ [.errorWalking a err]) hrest
          simp only [List.filterMap_cons, List.filter_cons, hc, hmiss]
          refine ⟨?_, h.2.1, ?_⟩
          · rw [h.1]
            simp
          · rw [h.2.2]
            simp [Msg.isPathNotFound]
        | unfinished => exact absurd rfl hne

theorem githubLoop_spec (fuel : Nat) (lower : Char → Char) (env : GithubEnv)
    (exts : List Str) (output : Str) :
    ∀ (paths : List Str) (out : Str) (log : List Msg),
      (∀ p ∈ paths, ∀ n, env.stat output p = some n → filesEnd lower exts n = true) →
      (githubLoop fuel lower env exts output paths (out, log)).1 =
        out ++ (paths.filterMap (githubContribution fuel lower env exts output)).flatten ∧
      (githubLoop fuel lower env exts output paths (out, log)).2.2 = true ∧
      ((githubLoop fuel lower env exts output paths (out, log)).2.1.filter
          Msg.isPathNotFound).length =
        (log.filter Msg.isPathNotFound).length +
          (paths.filter (githubMissing env output)).length
  | [], out, log, _ => by simp [githubLoop]
  | p :: rest, out, log, hf => by
    have hrest : ∀ q ∈ rest, ∀ n, env.stat output q = some n → filesEnd lower exts n = true :=
      fun q hq => hf q (by simp [hq])
    simp only [githubLoop]
    cases hs : env.stat output p with
    | none =>
      have h := githubLoop_spec fuel lower env exts output rest out (log ++ [.pathNotFound p]) hrest
      simp only [githubContribution, githubMissing, hs, List.filterMap_cons, List.filter_cons]
      refine ⟨h.1, h.2.1, ?_⟩
      rw [h.2.2]
      simp [Msg.isPathNotFound]
      omega
    | some node =>
      have hn : filesEnd lower exts node = true := hf p (by simp) node hs
      obtain ⟨hw, hne⟩ :=
        Additive_apply (walk_additive fuel lower exts (env.rel p) node hn) out
      simp only []
      rw [hw]
      have hc : githubContribution fuel lower env exts output p =
          some (walk fuel lower exts (env.rel p) node []).1 := by
        simp [githubContribution, hs]
      have hmiss : githubMissing env output p = false := by simp [githubMissing, hs]
      rcases hw0 : walk fuel lower exts (env.rel p) node [] with ⟨o1, e⟩
      rw [hw0] at hne hc
      simp only at hne hc
      cases e with
      | done =>
        have h := githubLoop_spec fuel lower env exts output rest (out ++ o1) log hrest
        simp only [List.filterMap_cons, List.filter_cons, hc, hmiss]
        refine ⟨?_, h.2.1, ?_⟩
        · rw [h.1]
          simp
        · rw [h.2.2]
          simp
      | failed err =>
        have h := githubLoop_spec fuel lower env exts output rest (out ++ o1)
          (log ++ [.errorWalking p err]) hrest
        simp only [List.filterMap_cons, List.filter_cons, hc, hmiss]
        refine ⟨?_, h.2.1, ?_⟩
        · rw [h.1]
          simp
        · rw [h.2.2]
          simp [Msg.isPathNotFound]
      | unfinished => exact absurd rfl hne

theorem localRun_unfinished (fuel : Nat) (lower : Char → Char) (env : LocalEnv)
    (p a : Str) (exts : List Str) (output : Str) (node : Node)
    (hc : env.create (defaultOutput output) = true) (ha : env.abs p = some a)
    (hs : env.stat (defaultOutput output) a = some node)
    (hw : (walk fuel lower (defaultExts exts) ".".toList node []).2 = .unfinished) :
    (localRun fuel lower env [p] exts output).ret = .unfinished := by
  rcases hw0 : walk fuel lower (defaultExts exts) ".".toList node [] with ⟨o, e⟩
  rw [hw0] at hw
  simp only at hw
  subst hw
  have hlen : ¬ [p].length = 0 := by simp
  simp only [localRun, hlen, if_false, hc, if_true, localLoop, ha, hs, hw0]

/-- C8 (amended). In the local flow and in the path loop of the github flow,
for a non-empty list of configured roots under which every file with an
accepted name has an end and is not the output file of the run itself, and
once the output file has been created (and, for github, the repository
cloned), the run returns no error; the output is the concatenation, in list
order, of what each existing root contributes when walked on its own, so a
root that does not exist contributes nothing; and the number of "Path not
found" warnings is the number of roots that do not exist. -/
theorem missing_root_nonfatal (fuel : Nat) (lower : Char → Char) :
    (∀ (env : LocalEnv) (paths exts : List Str) (output : Str),
      paths ≠ [] → env.create (defaultOutput output) = true →
      localRootsEnd lower env (defaultExts exts) (defaultOutput output) paths = true →
      (localRun fuel lower env paths exts output).ret = .ok ∧
      (localRun fuel lower env paths exts output).out =
        (paths.filterMap (localContribution fuel lower env (defaultExts exts)
          (defaultOutput output))).flatten ∧
      ((localRun fuel lower env paths exts output).log.filter Msg.isPathNotFound).length =
        (paths.filter (localMissing env (defaultOutput output))).length) ∧
    (∀ (env : GithubEnv) (url : Str) (paths exts : List Str) (output : Str),
      url ≠ [] → paths ≠ [] → env.mkdirTemp = true → env.clone url = true →
      env.create (defaultOutput output) = true →
      githubRootsEnd lower env (defaultExts exts) (defaultOutput output) paths = true →
      (githubRun fuel lower env url paths exts output).ret = .ok ∧
      (githubRun fuel lower env url paths exts output).out =
        (paths.filterMap (githubContribution fuel lower env (defaultExts exts)
          (defaultOutput output))).flatten ∧
      ((githubRun fuel lower env url paths exts output).log.filter Msg.isPathNotFound).length =
        (paths.filter (githubMissing env (defaultOutput output))).length) := by
  constructor
  · intro env paths exts output hp hc hend
    have hlen : ¬ paths.length = 0 := fun h => hp (List.length_eq_zero.mp h)
    have hf : ∀ p ∈ paths, ∀ n, localNode env (defaultOutput output) p = some n →
        filesEnd lower (defaultExts exts) n = true := by
      intro p hp n hn
      have := (List.all_eq_true.mp hend) p hp
      rw [hn] at this
      exact this
    have h := localLoop_spec fuel lower env (defaultExts exts) (defaultOutput output)
      paths [] [] hf
    rcases hl : localLoop fuel lower env (defaultExts exts) (defaultOutput output) paths
      ([], []) with ⟨o, lg, b⟩
    rw [hl] at h
    simp only [List.nil_append] at h
    obtain ⟨h1, h2, h3⟩ := h
    subst h2
    simp only [localRun, hlen, if_false, hc, if_true, hl]
    refine ⟨trivial, h1, ?_⟩
    rw [List.filter_append, List.length_append, h3]
    simp [Msg.isPathNotFound]
  · intro env url paths exts output hu hp hm hcl hc hend
    have hlen : ¬ paths.length = 0 := fun h => hp (List.length_eq_zero.mp h)
    have hf : ∀ p ∈ paths, ∀ n, env.stat (defaultOutput output) p = some n →
        filesEnd lower (defaultExts exts) n = true := by
      intro p hp n hn
      have := (List.all_eq_true.mp hend) p hp
      rw [hn] at this
      exact this
    have h := githubLoop_spec fuel lower env (defaultExts exts) (defaultOutput output)
      paths [] [.cloning url] hf
    rcases hl : githubLoop fuel lower env (defaultExts exts) (defaultOutput output) paths
      ([], [.cloning url]) with ⟨o, lg, b⟩
    rw [hl] at h
    simp only [List.nil_append] at h
    obtain ⟨h1, h2, h3⟩ := h
    subst h2
    simp only [githubRun, hu, hlen, if_false, hm, hcl, hc, if_true, hl]
    refine ⟨trivial, h1, ?_⟩
    rw [List.filter_append, List.length_append, h3]
    simp [Msg.isPathNotFound]

/-- C8, as stated, fails.  The local flow on `.` with the default output name
creates `output.md` in the directory it then walks; the scan loop over
`output.md` reads what it writes and does not end, so the run does not return.
The same happens under a root that holds a file without an end. -/
theorem missing_root_counterexample :
    ([".".toList] ≠ [] ∧ sinkLocalEnv.create (defaultOutput []) = true ∧
      localNode sinkLocalEnv (defaultOutput []) ".".toList =
        some (sinkTree "output.md".toList) ∧
      ¬ ∃ fuel, (localRun fuel Char.toLower sinkLocalEnv [".".toList] mdExts []).ret = .ok) ∧
    (["docs".toList] ≠ [] ∧ streamLocalEnv.create (defaultOutput []) = true ∧
      localNode streamLocalEnv (defaultOutput []) "docs".toList = some streamTree ∧
      ¬ ∃ fuel,
        (localRun fuel Char.toLower streamLocalEnv ["docs".toList] mdExts []).ret = .ok) := by
  refine ⟨⟨by decide, by decide, rfl, ?_⟩, ⟨by decide, by decide, rfl, ?_⟩⟩
  · rintro ⟨fuel, h⟩
    rw [localRun_unfinished fuel Char.toLower sinkLocalEnv ".".toList "/w".toList mdExts []
      (sinkTree "output.md".toList) (by decide) (by decide) rfl
      (walk_sinkTree_unfinished fuel)] at h
    exact Ret.noConfusion h
  · rintro ⟨fuel, h⟩
    rw [localRun_unfinished fuel Char.toLower streamLocalEnv "docs".toList "/w/docs".toList
      mdExts [] streamTree (by decide) (by decide) rfl (walk_streamTree_unfinished fuel)] at h
    exact Ret.noConfusion h

/-- Witness for `missing_root_nonfatal`: two roots, one missing; the run
succeeds, the output is what the existing root contributes, and there is
exactly one warning. -/
theorem missing_root_nonfatal_witness :
    (["docs".toList, "missing".toList] ≠ [] ∧
      exampleLocalEnv.create (defaultOutput []) = true ∧
      localRootsEnd Char.toLower exampleLocalEnv (defaultExts []) (defaultOutput [])
        ["docs".toList, "missing".toList] = true) ∧
    ((localRun 0 Char.toLower exampleLocalEnv ["docs".toList, "missing".toList] [] []).ret = .ok ∧
      (localRun 0 Char.toLower exampleLocalEnv ["docs".toList, "missing".toList] [] []).out =
        (["docs".toList, "missing".toList].filterMap
          (localContribution 0 Char.toLower exampleLocalEnv (defaultExts [])
            (defaultOutput []))).flatten ∧
      ((localRun 0 Char.toLower exampleLocalEnv ["docs".toList, "missing".toList] [] []).log.filter
          Msg.isPathNotFound).length =
        (["docs".toList, "missing".toList].filter
          (localMissing exampleLocalEnv (defaultOutput []))).length) ∧
    (localRun 0 Char.toLower exampleLocalEnv ["docs".toList, "missing".toList] [] []).log =
      [.pathNotFound "/w/missing".toList, .done "output.md".toList] ∧
    (localRun 0 Char.toLower exampleLocalEnv ["docs".toList, "missing".toList] [] []).out =
      (walk 0 Char.toLower (defaultExts []) ".".toList exampleTree []).1 ∧
    ((githubRun 0 Char.toLower exampleGithubEnv "https://example.com/r.git".toList
        ["missing".toList, "docs".toList] [] []).ret = .ok ∧
      (githubRun 0 Char.toLower exampleGithubEnv "https://example.com/r.git".toList
        ["missing".toList, "docs".toList] [] []).out =
        (["missing".toList, "docs".toList].filterMap
          (githubContribution 0 Char.toLower exampleGithubEnv (defaultExts [])
            (defaultOutput []))).flatten ∧
      ((githubRun 0 Char.toLower exampleGithubEnv "https://example.com/r.git".toList
        ["missing".toList, "docs".toList] [] []).log.filter Msg.isPathNotFound).length =
        (["missing".toList, "docs".toList].filter
          (githubMissing exampleGithubEnv (defaultOutput []))).length) ∧
    (githubRun 0 Char.toLower exampleGithubEnv "https://example.com/r.git".toList
        ["missing".toList, "docs".toList] [] []).log =
      [.cloning "https://example.com/r.git".toList, .pathNotFound "missing".toList,
        .done "output.md".toList] :=
  ⟨⟨by decide, by decide, by decide⟩,
    (missing_root_nonfatal 0 Char.toLower).1 exampleLocalEnv
      ["docs".toList, "missing".toList] [] [] (by decide) (by decide) (by decide),
    by decide, by decide,
    (missing_root_nonfatal 0 Char.toLower).2 exampleGithubEnv "https://example.com/r.git".toList
      ["missing".toList, "docs".toList] [] [] (by decide) (by decide) (by decide) (by decide)
      (by decide) (by decide),
    by decide⟩

/-! ## The resolver on concrete package paths -/

/-- Witness for `resolver_version_handling`: the package path of the
specification. -/
theorem resolver_version_handling_witness :
    4 ≤ (Split "host.com/org/project/v2/sub".toList '/').length ∧
    isVersionSegment ((Split "host.com/org/project/v2/sub".toList '/').getD 3 []) = true ∧
    goResolve "host.com/org/project/v2/sub".toList [] =
      .ok ⟨"host.com/org/project/v2".toList, "https://host.com/org/project".toList,
        "sub".toList, "./sub".toList⟩ :=
  ⟨by decide, by decide,
    (resolver_version_handling "host.com/org/project/v2/sub".toList (by decide)
      (by decide)).trans (by decide)⟩

/-- C3, as stated, fails.  On `host.com/org/project/` (four segments, the
fourth empty, none a version segment) RelativePath is empty and the doc path
is `.`, not `./`.  On `host.com/org/project/v/sub` the bare `v` passes the
version test of the code, so RepoRoot is `host.com/org/project/v` and
RelativePath is `sub`. -/
theorem resolver_plain_counterexample :
    (4 ≤ (Split "host.com/org/project/".toList '/').length ∧
      (∀ seg ∈ Split "host.com/org/project/".toList '/', isVersionSegment seg = false) ∧
      goResolve "host.com/org/project/".toList [] =
        .ok ⟨"host.com/org/project".toList, "https://host.com/org/project".toList, [],
          ".".toList⟩ ∧
      goResolve "host.com/org/project/".toList [] ≠
        .ok ⟨Join ((Split "host.com/org/project/".toList '/').take 3) "/".toList,
          "https://".toList ++ Join ((Split "host.com/org/project/".toList '/').take 3) "/".toList,
          Join ((Split "host.com/org/project/".toList '/').drop 3) "/".toList,
          "./".toList ++ Join ((Split "host.com/org/project/".toList '/').drop 3) "/".toList⟩) ∧
    (4 ≤ (Split "host.com/org/project/v/sub".toList '/').length ∧
      (∀ seg ∈ Split "host.com/org/project/v/sub".toList '/', isVersionSegment seg = false) ∧
      goResolve "host.com/org/project/v/sub".toList [] =
        .ok ⟨"host.com/org/project/v".toList, "https://host.com/org/project/v".toList,
          "sub".toList, "./sub".toList⟩ ∧
      goResolve "host.com/org/project/v/sub".toList [] ≠
        .ok ⟨Join ((Split "host.com/org/project/v/sub".toList '/').take 3) "/".toList,
          "https://".toList ++
            Join ((Split "host.com/org/project/v/sub".toList '/').take 3) "/".toList,
          Join ((Split "host.com/org/project/v/sub".toList '/').drop 3) "/".toList,
          "./".toList ++
            Join ((Split "host.com/org/project/v/sub".toList '/').drop 3) "/".toList⟩) := by
  decide

/-- Witness for `resolver_plain_decomposition`: the package path of the
specification. -/
theorem resolver_plain_decomposition_witness :
    4 ≤ (Split "host.com/org/project/sub/dir".toList '/').length ∧
    (∀ seg ∈ Split "host.com/org/project/sub/dir".toList '/', isVersionSegment seg = false) ∧
    (Split "host.com/org/project/sub/dir".toList '/').getD 3 [] ≠ "v".toList ∧
    goResolve "host.com/org/project/sub/dir".toList [] =
      .ok ⟨"host.com/org/project".toList, "https://host.com/org/project".toList,
        "sub/dir".toList, "./sub/dir".toList⟩ :=
  ⟨by decide, by decide, by decide,
    (resolver_plain_decomposition "host.com/org/project/sub/dir".toList (by decide) (by decide)
      (by decide)).trans (by decide)⟩

/-- Witness for `clone_url_rule`: an explicit root whose last segment is a
version segment and which has `/v` in an earlier segment too. -/
theorem clone_url_rule_witness :
    "example.com/v1mod/x/v3/sub".toList ≠ [] ∧
    (∃ r, goResolve "example.com/v1mod/x/v3/sub".toList "example.com/v1mod/x/v3".toList = .ok r ∧
      ("example.com/v1mod/x/v3".toList ≠ [] → r.repoRoot = "example.com/v1mod/x/v3".toList) ∧
      ('/' ∈ r.repoRoot →
        (isVersionSegment (lastSegment r.repoRoot) = true →
          r.cloneURL = "https://".toList ++ Join (Split r.repoRoot '/').dropLast "/".toList) ∧
        (isVersionSegment (lastSegment r.repoRoot) = false →
          r.cloneURL = "https://".toList ++ r.repoRoot))) ∧
    goResolve "example.com/v1mod/x/v3/sub".toList "example.com/v1mod/x/v3".toList =
      .ok ⟨"example.com/v1mod/x/v3".toList, "https://example.com/v1mod/x".toList,
        "sub".toList, "./sub".toList⟩ ∧
    goResolve "example.com/v2go/tool".toList "example.com/v2go/tool".toList =
      .ok ⟨"example.com/v2go/tool".toList, "https://example.com/v2go/tool".toList, [],
        ".".toList⟩ :=
  ⟨by decide, clone_url_rule "example.com/v1mod/x/v3/sub".toList "example.com/v1mod/x/v3".toList (by decide),
    by decide, by decide⟩

/-- Witness for `resolver_rejoin`: a package path with a version segment
followed by another segment of the same shape. -/
theorem resolver_rejoin_witness :
    (∀ seg ∈ Split "host.com/org/project/v2/v3/x".toList '/', seg ≠ []) ∧
    (∃ r, goResolve "host.com/org/project/v2/v3/x".toList [] = .ok r ∧
      (if r.relativePath = [] then r.repoRoot
        else r.repoRoot ++ "/".toList ++ r.relativePath) = "host.com/org/project/v2/v3/x".toList ∧
      ((r.repoRoot = Join ((Split "host.com/org/project/v2/v3/x".toList '/').take 3) "/".toList ∧
          r.relativePath =
            Join ((Split "host.com/org/project/v2/v3/x".toList '/').drop 3) "/".toList) ∨
        (r.repoRoot = Join ((Split "host.com/org/project/v2/v3/x".toList '/').take 4) "/".toList ∧
          r.relativePath =
            Join ((Split "host.com/org/project/v2/v3/x".toList '/').drop 4) "/".toList))) ∧
    goResolve "host.com/org/project/v2/v3/x".toList [] =
      .ok ⟨"host.com/org/project/v2".toList, "https://host.com/org/project".toList,
        "v3/x".toList, "./v3/x".toList⟩ :=
  ⟨by decide, resolver_rejoin "host.com/org/project/v2/v3/x".toList (by decide), by decide⟩

/-- Witness for `resolver_total`: a package path with empty segments and a
bare `v`, and an explicit root that ends in `/v`. -/
theorem resolver_total_witness :
    "/v".toList ≠ [] ∧
    ((∃ r, goResolve "/v".toList "a//v".toList = .ok r) ∧
      ((Split "/v".toList '/').length < 3 →
        ∃ url, goResolve "/v".toList [] = .ok ⟨"/v".toList, url, [], ".".toList⟩)) ∧
    goResolve "/v".toList [] = .ok ⟨"/v".toList, "https:///v".toList, [], ".".toList⟩ ∧
    goResolve "a//v//".toList "a//v".toList =
      .ok ⟨"a//v".toList, "https://a//v".toList, "/".toList, ".//".toList⟩ :=
  ⟨by decide, resolver_total "/v".toList "a//v".toList (by decide), by decide, by decide⟩

end DocsScraper
